import Mathlib

/-!
Verification of the Soy Python sanitizer (`src/python/sanitize.py`).

Strings of the program are modelled as `List Char`.  Regex-driven scanning
in the source is embedded as explicit character-level scanners that follow
the semantics of the compiled patterns; stateful loops become folds over
explicit state.  Functions whose source lives in the generated collaborator
module `generated_sanitize` (absent from `src/`) are modelled from the
spec and carry a doc comment saying so.
-/

namespace Sanitize

/-- Double-quote character (written via its code point). -/
def dquote : Char := Char.ofNat 34

/-- Single-quote character (written via its code point). -/
def squote : Char := Char.ofNat 39

/-- The ASCII lowercase letters. -/
def lowerLetters : List Char := ("abcdefghijklmnopqrstuvwxyz").toList

/-- The ASCII uppercase letters. -/
def upperLetters : List Char := ("ABCDEFGHIJKLMNOPQRSTUVWXYZ").toList

/-- The ASCII digits. -/
def digitChars : List Char := ("0123456789").toList

/-- ASCII lowercase letter test (regex `[a-z]`). -/
def isAsciiLower (c : Char) : Bool := lowerLetters.contains c

/-- ASCII uppercase letter test (regex `[A-Z]`). -/
def isAsciiUpper (c : Char) : Bool := upperLetters.contains c

/-- ASCII digit test (regex `[0-9]`, and `\d` restricted to ASCII). -/
def isAsciiDigit (c : Char) : Bool := digitChars.contains c

/-- `str.lower()` on one character (ASCII reading): uppercase letters map
to their lowercase counterparts, everything else is unchanged. -/
def lowerChar (c : Char) : Char :=
  (((upperLetters.zip lowerLetters).find? fun p => p.1 = c).map Prod.snd).getD c

/-- First character of a tag name: `[a-zA-Z]` (the source pattern is
`[a-z]` under `re.IGNORECASE`). -/
def isNameStart (c : Char) : Bool := isAsciiLower c || isAsciiUpper c

/-- Subsequent characters of a tag name: the source class `[\w:-]`
(ASCII reading of `\w`). -/
def isNameChar (c : Char) : Bool :=
  isNameStart c || isAsciiDigit c || c = ':' || c = '-' || c = '_'

/-- Regex `\w` word character (ASCII reading), used for the `\b` boundary
in `_HTML5_VOID_ELEMENTS_RE`. -/
def isWordChar (c : Char) : Bool := isNameStart c || isAsciiDigit c || c = '_'

/-- Concatenation of a list of character lists. -/
def flat : List (List Char) → List Char
  | [] => []
  | l :: ls => l ++ flat ls

/-- Map a character-to-list function over a list and concatenate
(the shape of a global `re.sub` with a per-character replacement). -/
def concatMap2 (f : Char → List Char) (cs : List Char) : List Char :=
  flat (cs.map f)

/-- Longest prefix of characters satisfying `p`. -/
def takeW (p : Char → Bool) : List Char → List Char
  | [] => []
  | c :: cs => if p c then c :: takeW p cs else []

/-- Rest of the list after `takeW`. -/
def dropW (p : Char → Bool) : List Char → List Char
  | [] => []
  | c :: cs => if p c then dropW p cs else c :: cs

/-- Parse a tag name `[a-zA-Z][\w:-]*` at the head of the input; returns the
name and the remaining characters. -/
def parseName : List Char → Option (List Char × List Char)
  | [] => none
  | c :: cs =>
    if isNameStart c then some (c :: takeW isNameChar cs, dropW isNameChar cs)
    else none

/-- Mode of the tag-body scan: outside quotes, inside a double-quoted
attribute value, or inside a single-quoted one.  This realizes the regex
body `(?:[^>'"]|"[^"]*"|'[^']*')*` followed by `>`. -/
inductive BodyMode
  | normal
  | inDouble
  | inSingle
deriving DecidableEq

/-- Scan the tag body until the closing `>`; returns the body characters
(the regex attribute group) and the rest after `>`.  `none` when no valid
body/`>` exists, i.e. the regex match fails. -/
def scanBodyAcc : BodyMode → List Char → List Char → Option (List Char × List Char)
  | _, _, [] => none
  | .normal, acc, c :: cs =>
    if c = '>' then some (acc.reverse, cs)
    else if c = dquote then scanBodyAcc .inDouble (c :: acc) cs
    else if c = squote then scanBodyAcc .inSingle (c :: acc) cs
    else scanBodyAcc .normal (c :: acc) cs
  | .inDouble, acc, c :: cs =>
    if c = dquote then scanBodyAcc .normal (c :: acc) cs
    else scanBodyAcc .inDouble (c :: acc) cs
  | .inSingle, acc, c :: cs =>
    if c = squote then scanBodyAcc .normal (c :: acc) cs
    else scanBodyAcc .inSingle (c :: acc) cs

/-- Modelled from the spec: the generic tag-syntax scan of
`generated_sanitize._HTML_TAG_REGEX`
(`<(?:!|/?(name))(body)*>`), the module being absent from `src/`;
per spec 4.3/4.4 it is the same generic tag-syntax scan as the in-source
`_TAG_RE` without the comment alternative.  Called with the characters
following a `<`; returns `none` (no tag name, a `<!...>` construct) or
`some (isClosing, name)`, plus the characters after the closing `>`. -/
def parseTagAfterLt : List Char → Option (Option (Bool × List Char) × List Char)
  | [] => none
  | c :: cs =>
    if c = '!' then
      match scanBodyAcc .normal [] cs with
      | some (_, rest) => some (none, rest)
      | none => none
    else if c = '/' then
      match parseName cs with
      | some (n, cs1) =>
        match scanBodyAcc .normal [] cs1 with
        | some (_, rest) => some (some (true, n), rest)
        | none => none
      | none => none
    else
      match parseName (c :: cs) with
      | some (n, cs1) =>
        match scanBodyAcc .normal [] cs1 with
        | some (_, rest) => some (some (false, n), rest)
        | none => none
      | none => none

/-- One event of the tag scan: a text run, a named tag (opening or closing),
or a nameless `<!...>` construct (regex group 1 is `None`). -/
inductive Seg
  | stext (t : List Char)
  | stag (cl : Bool) (name : List Char)
  | sbang
deriving DecidableEq

/-- Fueled scanning loop realizing repeated leftmost matching of the tag
regex (`re.sub`/`finditer` semantics): text is accumulated (reversed) in
`acc`; at `<` a tag match is attempted; a failed match leaves the `<` as
text and rescanning continues one character later. -/
def scanAux : Nat → List Char → List Char → List Seg
  | 0, acc, cs => [Seg.stext (acc.reverse ++ cs)]
  | _ + 1, acc, [] => [Seg.stext (acc.reverse ++ [])]
  | f + 1, acc, c :: cs =>
    if c = '<' then
      match parseTagAfterLt cs with
      | some (info, rest) =>
        Seg.stext (acc.reverse ++ []) ::
          (match info with
           | none => Seg.sbang
           | some (cl, n) => Seg.stag cl n) :: scanAux f [] rest
      | none => scanAux f (c :: acc) cs
    else scanAux f (c :: acc) cs

/-- Scan a whole string into text/tag events. -/
def scanTags (cs : List Char) : List Seg := scanAux (cs.length + 1) [] cs

/-! ## Void elements and tag tokens -/

/-- The HTML5 void element names of `_HTML5_VOID_ELEMENTS_RE`. -/
def voidNames : List (List Char) :=
  ["area", "base", "br", "col", "command", "embed", "hr", "img", "input",
   "keygen", "link", "meta", "param", "source", "track", "wbr"].map String.toList

/-- The `\b` word boundary after a void-element alternative: end of the
name, or a non-word character. -/
def boundaryAfter : List Char → Bool
  | [] => true
  | c :: _ => !isWordChar c

/-- `_HTML5_VOID_ELEMENTS_RE.match('<' + name + '>')` on a tag name:
the name begins with a void element name followed by a word boundary
(the final `>` of the probe string always supplies a boundary when the
whole name is consumed).  A leading `/` on the name makes every
alternative fail, so closing tags are never void. -/
def startsVoid (name : List Char) : Bool :=
  voidNames.any fun v => name.take v.length = v && boundaryAfter (name.drop v.length)

/-- A whitelisted tag recorded by `_tag_sub_handler`: the Python code
stores the strings `'<' + name + '>'` and `'</' + name + '>'`; we keep the
closing flag and the (lowercased) name, which renders back to exactly
those strings. -/
structure Tok where
  cl : Bool
  name : List Char
deriving DecidableEq

/-- Render a token back to its stored string form. -/
def renderTok (t : Tok) : List Char :=
  if t.cl then '<' :: '/' :: (t.name ++ ['>']) else '<' :: (t.name ++ ['>'])

/-- Render a token list. -/
def renderToks (ts : List Tok) : List Char := flat (ts.map renderTok)

/-- First index of `n` in the stack (the Python loop scans
`open_tags` from its end, i.e. from the most recently pushed entry;
our stack keeps the most recent entry at the head). -/
def findIdxO (n : List Char) : List (List Char) → Option Nat
  | [] => none
  | m :: rest => if m = n then some 0 else (findIdxO n rest).map (· + 1)

/-- The loop body of `_balance_tags` over the token list, with the stack of
open tag names (`open_tags`, most recent first; Python stores the close
strings `'</' + name + '>'`, which are in bijection with the names).
For each input token it yields the list of tokens that replace it:
a dangling close becomes `[]` (dropped), a matched close becomes the
synthesized closes for everything above and including the match, an open
tag stays and is pushed unless void.  Returns the replacements and the
final stack. -/
def balanceAux : List Tok → List (List Char) → List (List Tok) × List (List Char)
  | [], stack => ([], stack)
  | t :: rest, stack =>
    if t.cl then
      match findIdxO t.name stack with
      | none =>
        let r := balanceAux rest stack
        ([] :: r.1, r.2)
      | some j =>
        let r := balanceAux rest (stack.drop (j + 1))
        (((stack.take (j + 1)).map fun n => Tok.mk true n) :: r.1, r.2)
    else
      if startsVoid t.name then
        let r := balanceAux rest stack
        ([t] :: r.1, r.2)
      else
        let r := balanceAux rest (t.name :: stack)
        ([t] :: r.1, r.2)

/-- Close tags for the remaining stack, most recent first
(`''.join(reversed(open_tags))`). -/
def closersFor (stack : List (List Char)) : List Tok :=
  stack.map fun n => Tok.mk true n

/-- `_balance_tags`: replacement token lists for each input token plus the
auto-close suffix tokens. -/
def balanceTags (toks : List Tok) : List (List Tok) × List Tok :=
  let r := balanceAux toks []
  (r.1, closersFor r.2)

/-- Well-nestedness checker for a token sequence: opens of non-void
elements must be closed in LIFO order, every close must match the
innermost open element, and at the end nothing is left open.  Void
element opens take no part in nesting. -/
def chkBal : List (List Char) → List Tok → Bool
  | stack, [] => stack.isEmpty
  | stack, t :: ts =>
    if t.cl then
      match stack with
      | [] => false
      | m :: rest => if m = t.name then chkBal rest ts else false
    else
      if startsVoid t.name then chkBal stack ts else chkBal (t.name :: stack) ts

/-! ## The whitelist filter `_strip_html_tags` -/

/-- Modelled from the spec: `generated_sanitize.normalize_html_helper`
(module absent from `src/`), the "general HTML character escaping" of
spec 4.3 step 3 that escapes the HTML special characters but, being a
normalizer, leaves ampersands alone. -/
def normChar (c : Char) : List Char :=
  if c = '<' then ("&lt;").toList
  else if c = '>' then ("&gt;").toList
  else if c = dquote then ("&quot;").toList
  else if c = squote then ("&#39;").toList
  else [c]

/-- Modelled from the spec: HTML normalization over a whole string. -/
def normalizeHtml (cs : List Char) : List Char := concatMap2 normChar cs

/-- `str(value).replace('[', '&#91;')`, per character. -/
def bracketEscChar (c : Char) : List Char :=
  if c = '[' then ("&#91;").toList else [c]

/-- `str(value).replace('[', '&#91;')`. -/
def bracketEscape (cs : List Char) : List Char := concatMap2 bracketEscChar cs

/-- Modelled from the spec: `generated_sanitize._LT_REGEX.sub('&lt;', ...)`,
escaping every remaining `<` on the no-whitelist path. -/
def ltEscChar (c : Char) : List Char :=
  if c = '<' then ("&lt;").toList else [c]

/-- The concatenated text runs of a scan (the effect of
`_HTML_TAG_REGEX.sub('', value)`, which deletes every tag match). -/
def segsText : List Seg → List Char
  | [] => []
  | Seg.stext t :: rest => t ++ segsText rest
  | _ :: rest => segsText rest

/-- Decimal digits of a natural number (the `'[%d]'` marker index),
fueled to keep the recursion structural. -/
def digitsAux : Nat → Nat → List Char
  | 0, _ => []
  | f + 1, n =>
    if n < 10 then [digitChars.getD n '0']
    else digitsAux f (n / 10) ++ [digitChars.getD (n % 10) '0']

/-- Decimal rendering of a natural number. -/
def natDigits (n : Nat) : List Char := digitsAux (n + 1) n

/-- `int()` of a digit run (the marker index read back by the
`_REPLACEMENT_TAG_RE` substitution). -/
def parseDigits (ds : List Char) : Nat :=
  ds.foldl (fun a c => 10 * a + (c.toNat - 48)) 0

/-- A fragment of the marker-bearing intermediate string built by the
whitelist substitution pass: plain text, or a `[i]` marker. -/
inductive Piece
  | ptxt (t : List Char)
  | pmark (i : Nat)
deriving DecidableEq

/-- Render the intermediate string: markers appear as `[i]`. -/
def renderPieces : List Piece → List Char
  | [] => []
  | Piece.ptxt t :: rest => t ++ renderPieces rest
  | Piece.pmark i :: rest => '[' :: (natDigits i ++ [']']) ++ renderPieces rest

/-- `_tag_sub_handler` folded over the scan events: whitelisted tags
(name lowercased) become `[index]` markers and append their token to the
tag list; everything else is replaced by the empty string.  `tags` is the
accumulator list the handler appends to. -/
def buildMarked (wl : List (List Char)) : List Seg → List Tok → List Piece × List Tok
  | [], tags => ([], tags)
  | Seg.stext t :: rest, tags =>
    let r := buildMarked wl rest tags
    (Piece.ptxt t :: r.1, r.2)
  | Seg.sbang :: rest, tags => buildMarked wl rest tags
  | Seg.stag cl n :: rest, tags =>
    let nl := n.map lowerChar
    if nl ∈ wl then
      let r := buildMarked wl rest (tags ++ [Tok.mk cl nl])
      (Piece.pmark tags.length :: r.1, r.2)
    else buildMarked wl rest tags

/-- `_REPLACEMENT_TAG_RE.sub`: scan for `[digits]` and replace by the
(possibly emptied) tag string with that index; replaced text is not
rescanned; a failed match leaves the `[` in place and rescanning resumes
at the next character.  Out-of-range indices cannot occur for strings
built by the filter (Python would raise there); `getD` keeps the model
total. -/
def substMarkers : Nat → List Char → List (List Char) → List Char
  | 0, cs, _ => cs
  | _ + 1, [], _ => []
  | f + 1, c :: cs, tags =>
    if c = '[' then
      let ds := takeW isAsciiDigit cs
      match dropW isAsciiDigit cs with
      | d :: rest =>
        if d = ']' && !ds.isEmpty then
          (tags.getD (parseDigits ds) []) ++ substMarkers f rest tags
        else c :: substMarkers f cs tags
      | [] => c :: substMarkers f cs tags
    else c :: substMarkers f cs tags

/-- `_strip_html_tags(value, tag_whitelist)` on characters.  The empty
whitelist models the falsy `tag_whitelist` argument (`None` or `[]`). -/
def stripHtmlTags (cs : List Char) (wl : List (List Char)) : List Char :=
  if wl.isEmpty then
    concatMap2 ltEscChar (segsText (scanTags cs))
  else
    let html1 := bracketEscape cs
    let segs := scanTags html1
    let bm := buildMarked wl segs []
    let html2 := renderPieces bm.1
    let html3 := normalizeHtml html2
    let bal := balanceTags bm.2
    let tagstrs := bal.1.map renderToks
    let html4 := substMarkers (html3.length + 1) html3 tagstrs
    html4 ++ renderToks bal.2

/-- String-level wrapper for `_strip_html_tags`. -/
def stripHtmlTagsS (s : String) (wl : List String) : String :=
  ⟨stripHtmlTags s.toList (wl.map String.toList)⟩

/-- The tag tokens appearing in a string, in order (via the same generic
tag-syntax scan). -/
def toksOfSegs : List Seg → List Tok
  | [] => []
  | Seg.stag cl n :: rest => Tok.mk cl n :: toksOfSegs rest
  | _ :: rest => toksOfSegs rest

/-- Tag tokens of a string. -/
def toksOf (cs : List Char) : List Tok := toksOfSegs (scanTags cs)

/-! ## Decomposition of filter output into text and tag items

These definitions name the shape of the strings the whitelist filter
produces — an interleaving of tag-free text runs and rendered tag
tokens — which the balance and idempotence proofs reason about. -/

/-- Concatenation of token lists. -/
def flatT : List (List Tok) → List Tok
  | [] => []
  | l :: ls => l ++ flatT ls

/-- An output fragment: a text run or a rendered tag token. -/
inductive Item
  | itxt (t : List Char)
  | itok (k : Tok)
deriving DecidableEq

/-- Render an item sequence to a string. -/
def renderItems : List Item → List Char
  | [] => []
  | Item.itxt t :: rest => t ++ renderItems rest
  | Item.itok k :: rest => renderTok k ++ renderItems rest

/-- The tokens of an item sequence, in order. -/
def itemToks : List Item → List Tok
  | [] => []
  | Item.itxt _ :: rest => itemToks rest
  | Item.itok k :: rest => k :: itemToks rest

/-- Expected scan of a rendered item sequence: text runs accumulate into
the chunk before the next tag (reversed in `acc`), each token becomes a
tag event. -/
def scanItemsExp (acc : List Char) : List Item → List Seg
  | [] => [Seg.stext acc.reverse]
  | Item.itxt t :: rest => scanItemsExp (t.reverse ++ acc) rest
  | Item.itok k :: rest =>
    Seg.stext acc.reverse :: Seg.stag k.cl k.name :: scanItemsExp [] rest

/-- Expected marker pieces of the second substitution pass over a rendered
item sequence: `k` is the index of the next marker. -/
def piecesExp (acc : List Char) (k : Nat) : List Item → List Piece
  | [] => [Piece.ptxt acc.reverse]
  | Item.itxt t :: rest => piecesExp (t.reverse ++ acc) k rest
  | Item.itok _ :: rest =>
    Piece.ptxt acc.reverse :: Piece.pmark k :: piecesExp [] (k + 1) rest

/-- Replace each marker piece by the token items of the corresponding
balanced tag string. -/
def itemsOfPieces (outs : List (List Tok)) : List Piece → List Item
  | [] => []
  | Piece.ptxt t :: rest => Item.itxt t :: itemsOfPieces outs rest
  | Piece.pmark i :: rest => (outs.getD i []).map Item.itok ++ itemsOfPieces outs rest

/-- Normalization applied piecewise (markers are untouched by it). -/
def normPieces : List Piece → List Piece
  | [] => []
  | Piece.ptxt t :: r => Piece.ptxt (normalizeHtml t) :: normPieces r
  | Piece.pmark i :: r => Piece.pmark i :: normPieces r

/-- The marker indices of a piece list, in order. -/
def marksOf : List Piece → List Nat
  | [] => []
  | Piece.ptxt _ :: r => marksOf r
  | Piece.pmark i :: r => i :: marksOf r

/-- A character the filter can emit inside a text run: none of the HTML
specials the normalizer rewrites, and no `[` (escaped up front). -/
def safeChar (c : Char) : Prop :=
  c ≠ '<' ∧ c ≠ '>' ∧ c ≠ dquote ∧ c ≠ squote ∧ c ≠ '['

/-- A tag name as recorded by the whitelist handler: nonempty, a leading
letter, name characters throughout. -/
def goodName (n : List Char) : Bool :=
  match n with
  | [] => false
  | c :: cs => isNameStart c && cs.all isNameChar

/-- The invariants of the filter output decomposition: text runs hold only
safe characters; token names are well-formed, lowercase, and whitelisted;
the token sequence is well-nested. -/
def goodItems (wl : List (List Char)) (items : List Item) : Prop :=
  (∀ t, Item.itxt t ∈ items → ∀ c ∈ t, safeChar c) ∧
  (∀ k, Item.itok k ∈ items →
    goodName k.name = true ∧ k.name.map lowerChar = k.name ∧ k.name ∈ wl) ∧
  chkBal [] (itemToks items) = true

/-! ## The content model -/

/-- `CONTENT_KIND`: the eight content kinds. -/
inductive ContentKind
  | html
  | js
  | jsStrChars
  | uri
  | trustedResourceUri
  | attributes
  | css
  | text
deriving DecidableEq

/-- `DIR`: directionality. -/
inductive Dir
  | ltr
  | neutral
  | rtl
deriving DecidableEq

/-- `IActuallyUnderstandSoyTypeSafetyAndHaveSecurityApproval`: carries an
optional justification string (the constructor leaves the class-level
`None` in place when called with a falsy justification). -/
structure Approval where
  justification : Option (List Char)
deriving DecidableEq

/-- `IActuallyUnderstandSoyTypeSafetyAndHaveSecurityApproval.__init__`:
`if justification: self.justification = justification` — a `None` or
empty argument leaves the attribute `None`. -/
def mkApproval (j : Option (List Char)) : Approval :=
  match j with
  | none => ⟨none⟩
  | some t => if t.isEmpty then ⟨none⟩ else ⟨some t⟩

/-- A constructed `SanitizedContent` value. -/
structure Sanitized where
  kind : ContentKind
  content : List Char
  contentDir : Option Dir
deriving DecidableEq

/-- Constructing a `SanitizedContent`: `__new__` raises `TypeError` when
the target class is the abstract base or its `content_kind` is unset
(`kind = none` here); `__init__` raises when `approval` is not an
approval instance (`none` here), or its justification is falsy or
shorter than 20 characters. -/
def mkSanitizedContent (kind : Option ContentKind) (content : List Char)
    (contentDir : Option Dir) (approval : Option Approval) :
    Except (List Char) Sanitized :=
  match kind with
  | none =>
    Except.error ("SanitizedContent cannot be instantiated directly.").toList
  | some k =>
    match approval with
    | none => Except.error ("Caller does not have sanitization approval.").toList
    | some a =>
      match a.justification with
      | none =>
        Except.error ("A justification of at least 20 characters must be provided.").toList
      | some j =>
        if j.length < 20 then
          Except.error ("A justification of at least 20 characters must be provided.").toList
        else Except.ok ⟨k, content, contentDir⟩

/-- A runtime value reaching the sanitizer entry points: `None`, a plain
string, or a `SanitizedContent` instance. -/
inductive SoyValue
  | noneV
  | strV (s : List Char)
  | sanitizedV (v : Sanitized)
deriving DecidableEq

/-- `str(value)`: the literal string form (`str(None)` is `"None"`;
`SanitizedContent.__str__` returns the content). -/
def strOf : SoyValue → List Char
  | SoyValue.noneV => ("None").toList
  | SoyValue.strV s => s
  | SoyValue.sanitizedV v => v.content

/-- `isinstance(value, SanitizedHtml)` / `is_content_kind(value, HTML)`. -/
def isHtmlValue : SoyValue → Bool
  | SoyValue.sanitizedV v => v.kind = ContentKind.html
  | _ => false

/-- `get_content_dir(value)`. -/
def getContentDir : SoyValue → Option Dir
  | SoyValue.sanitizedV v => v.contentDir
  | _ => none

/-- Modelled from the spec: `generated_sanitize._SAFE_TAG_WHITELIST`
(module absent from `src/`), the default safe-tag whitelist constant of
the filter; the claims settled here do not depend on its exact
membership. -/
def safeTagWhitelist : List (List Char) :=
  ["b", "br", "em", "i", "s", "sub", "sup", "u"].map String.toList

/-- Set union of the provided tags with the default whitelist
(`list(set(safe_tags).union(_SAFE_TAG_WHITELIST))`); only membership in
the result is ever used, so the list order is irrelevant. -/
def unionTags (safeTags : List (List Char)) : List (List Char) :=
  safeTags ++ safeTagWhitelist.filter (fun t => ¬ t ∈ safeTags)

/-- `clean_html(value, safe_tags)`: values already of kind HTML are
re-wrapped unchanged (same content, same directionality) with a fresh
approval; anything else goes through the whitelist filter on its string
form.  The result is the constructed `SanitizedHtml`. -/
def cleanHtml (value : SoyValue) (safeTags : List (List Char)) : Sanitized :=
  let wl := if safeTags.isEmpty then safeTagWhitelist else unionTags safeTags
  match value with
  | SoyValue.sanitizedV v =>
    if v.kind = ContentKind.html then
      ⟨ContentKind.html, v.content, v.contentDir⟩
    else
      ⟨ContentKind.html, stripHtmlTags v.content wl, v.contentDir⟩
  | v => ⟨ContentKind.html, stripHtmlTags (strOf v) wl, getContentDir v⟩

/-! ## `html_to_text` -/

/-- One event of the `_TAG_RE` scan: a text run, a named tag match
(group 1 with its leading `/`, not yet lowercased, plus the attribute
group 2), or a nameless match (comment or `<!...>`, group 1 `None`). -/
inductive Seg2
  | t2 (t : List Char)
  | tag2 (name : List Char) (attrs : List Char)
  | barren2
deriving DecidableEq

/-- The non-greedy comment alternative `!--.*?--` followed by `>`: find
the first `-->`; `.` does not match a newline, so a newline before it
makes the alternative fail.  Returns the rest after `-->`. -/
def parseComment : List Char → Option (List Char)
  | '-' :: '-' :: '>' :: cs => some cs
  | '\n' :: _ => none
  | _ :: cs => parseComment cs
  | [] => none

/-- `_TAG_RE` match attempt after a `<`: the comment alternative first,
then `!` or `/?name` with the attribute body, then `>`. -/
def parseTagAfterLt2 : List Char → Option (Option (List Char × List Char) × List Char)
  | [] => none
  | '!' :: cs =>
    (match cs with
     | '-' :: '-' :: cs2 =>
       match parseComment cs2 with
       | some rest => some (none, rest)
       | none =>
         match scanBodyAcc .normal [] cs with
         | some (_, rest) => some (none, rest)
         | none => none
     | _ =>
       match scanBodyAcc .normal [] cs with
       | some (_, rest) => some (none, rest)
       | none => none)
  | '/' :: cs =>
    match parseName cs with
    | some (n, cs1) =>
      match scanBodyAcc .normal [] cs1 with
      | some (b, rest) => some (some ('/' :: n, b), rest)
      | none => none
    | none => none
  | cs =>
    match parseName cs with
    | some (n, cs1) =>
      match scanBodyAcc .normal [] cs1 with
      | some (b, rest) => some (some (n, b), rest)
      | none => none
    | none => none

/-- Fueled `_TAG_RE.finditer` loop; the final `\Z` alternative makes the
trailing text its own chunk event. -/
def scanAux2 : Nat → List Char → List Char → List Seg2
  | 0, acc, cs => [Seg2.t2 (acc.reverse ++ cs)]
  | _ + 1, acc, [] => [Seg2.t2 (acc.reverse ++ [])]
  | f + 1, acc, c :: cs =>
    if c = '<' then
      match parseTagAfterLt2 cs with
      | some (info, rest) =>
        Seg2.t2 (acc.reverse ++ []) ::
          (match info with
           | none => Seg2.barren2
           | some (n, b) => Seg2.tag2 n b) :: scanAux2 f [] rest
      | none => scanAux2 f (c :: acc) cs
    else scanAux2 f (c :: acc) cs

/-- Scan a whole trusted-HTML string with `_TAG_RE`. -/
def scanTags2 (cs : List Char) : List Seg2 := scanAux2 (cs.length + 1) [] cs

/-- The attribute-syntax whitespace class `[\t\n\r ]`. -/
def isWsAttr (c : Char) : Bool := c = '\t' || c = '\n' || c = '\r' || c = ' '

/-- The HTML whitespace class `[ \t\r\n]` of `_HTML_WHITESPACE_RE`. -/
def isHtmlWs (c : Char) : Bool := c = ' ' || c = '\t' || c = '\r' || c = '\n'

/-- `_ATTR_RE` attribute-name tail class `[a-zA-Z0-9:\\-]` (the source
raw string contains a doubled backslash, so the class holds a literal
backslash besides the dash). -/
def isAttrNameChar (c : Char) : Bool :=
  isNameStart c || isAsciiDigit c || c = ':' || c = '\\' || c = '-'

/-- Split a quoted value at the next quote `q`; `none` when unclosed. -/
def splitQuote (q : Char) : List Char → Option (List Char × List Char)
  | [] => none
  | c :: cs =>
    if c = q then some ([], cs)
    else (splitQuote q cs).map fun p => (c :: p.1, p.2)

/-- `_ATTR_RE` match attempt at a position: name, optional whitespace,
`=`, optional whitespace, then a quoted value (group 2 keeps its
quotes). -/
def attrMatchAt : List Char → Option ((List Char × List Char) × List Char)
  | [] => none
  | c :: cs =>
    if isNameStart c then
      let nm := c :: takeW isAttrNameChar cs
      let r1 := dropW isWsAttr (dropW isAttrNameChar cs)
      match r1 with
      | '=' :: r2 =>
        match dropW isWsAttr r2 with
        | q :: r3 =>
          if q = dquote || q = squote then
            match splitQuote q r3 with
            | some (inner, rest) => some ((nm, q :: (inner ++ [q])), rest)
            | none => none
          else none
        | [] => none
      | _ => none
    else none

/-- Fueled `_ATTR_RE.finditer`: leftmost matches, rescanning one
character later after a failed attempt. -/
def attrFinditer : Nat → List Char → List (List Char × List Char)
  | 0, _ => []
  | _ + 1, [] => []
  | f + 1, c :: cs =>
    match attrMatchAt (c :: cs) with
    | some (m, rest) => m :: attrFinditer f rest
    | none => attrFinditer f cs

/-- The `_STYLE_RE` declaration-part class `[^:;\t\n\r ]`. -/
def isStyleValChar (c : Char) : Bool := !(c = ':' || c = ';' || isWsAttr c)

/-- `_STYLE_RE` match attempt at a position:
`ws* (part) ws* : ws* (part) ws* (; | end)`. -/
def styleMatchAt (cs : List Char) : Option ((List Char × List Char) × List Char) :=
  let cs1 := dropW isWsAttr cs
  let g1 := takeW isStyleValChar cs1
  let cs2 := dropW isWsAttr (dropW isStyleValChar cs1)
  match cs2 with
  | ':' :: cs3 =>
    let cs4 := dropW isWsAttr cs3
    let g2 := takeW isStyleValChar cs4
    let cs5 := dropW isWsAttr (dropW isStyleValChar cs4)
    match cs5 with
    | ';' :: cs6 => some ((g1, g2), cs6)
    | [] => some ((g1, g2), [])
    | _ => none
  | _ => none

/-- Fueled `_STYLE_RE.finditer`. -/
def styleFinditer : Nat → List Char → List (List Char × List Char)
  | 0, _ => []
  | _ + 1, [] => []
  | f + 1, c :: cs =>
    match styleMatchAt (c :: cs) with
    | some (m, rest) => m :: styleFinditer f rest
    | none => styleFinditer f cs

/-- `_PRESERVE_WHITESPACE_STYLES_RE.match` (anchored, `$`-terminated,
case-insensitive): the value is exactly one of the preserving keywords. -/
def isPreserveStyle (v : List Char) : Bool :=
  let l := v.map lowerChar
  l = ("pre").toList || l = ("pre-wrap").toList || l = ("break-spaces").toList

/-- `_COLLAPSE_WHITESPACE_STYLES_RE.match`. -/
def isCollapseStyle (v : List Char) : Bool :=
  let l := v.map lowerChar
  l = ("normal").toList || l = ("nowrap").toList

/-- `get_style_preserves_whitespace`: the first `white-space` declaration
with a recognized value decides; otherwise `None`. -/
def styleDecide : List (List Char × List Char) → Option Bool
  | [] => none
  | (g1, g2) :: rest =>
    if !g1.isEmpty && g1.map lowerChar = ("white-space").toList then
      if isPreserveStyle g2 then some true
      else if isCollapseStyle g2 then some false
      else styleDecide rest
    else styleDecide rest

/-- `get_style_preserves_whitespace` over a style string. -/
def getStylePreservesWhitespace (style : List Char) : Option Bool :=
  styleDecide (styleFinditer (style.length + 1) style)

/-- `get_attributes_preserve_whitespace`: an empty attribute string gives
`None`; the first `style` attribute (value unquoted) decides via the
style parse and the function returns there. -/
def getAttributesPreserveWhitespace (attrs : List Char) : Option Bool :=
  if attrs.isEmpty then none
  else
    match (attrFinditer (attrs.length + 1) attrs).find?
        (fun m => m.1.map lowerChar = ("style").toList) with
    | some m =>
      let style := m.2
      let style1 :=
        match style with
        | c :: _ => if c = squote || c = dquote then (style.drop 1).dropLast else style
        | [] => style
      if style1.isEmpty then none else getStylePreservesWhitespace style1
    | none => none

/-- A whitespace-preservation frame `(tagName, preserveWhitespace)`;
the stack keeps the most recently pushed frame at the head. -/
abbrev WsFrame := List Char × Bool

/-- `should_preserve_whitespace`: the top frame governs; empty stack
collapses. -/
def shouldPreserveWs (stack : List WsFrame) : Bool :=
  match stack with
  | [] => false
  | f :: _ => f.2

/-- The closing-tag pop loop: `while stack and stack.pop()[0] != tag`.
Frames are popped until one whose name matches the closing tag is popped;
with no match the stack empties. -/
def popThroughTag (name : List Char) : List WsFrame → List WsFrame
  | [] => []
  | f :: rest => if f.1 = name then rest else popThroughTag name rest

/-- `_WS_PRESERVING_TAGS_RE` (`pre$`): the tag is exactly `pre`. -/
def isPreName (tag : List Char) : Bool := tag = ("pre").toList

/-- `update_preserve_whitespace_stack(tag, attrs)`: closing tags pop
through the first matching frame; an opening `pre` pushes a preserving
frame; any other opening tag pushes a frame whose setting comes from its
inline `white-space` style, defaulting to the inherited top-of-stack
setting. -/
def updatePreserveWhitespaceStack (tag : List Char) (attrs : List Char)
    (stack : List WsFrame) : List WsFrame :=
  if tag.headD ' ' = '/' then popThroughTag (tag.drop 1) stack
  else if isPreName tag then (tag, true) :: stack
  else
    let pw :=
      match getAttributesPreserveWhitespace attrs with
      | some b => b
      | none => shouldPreserveWs stack
    (tag, pw) :: stack

/-- `_REMOVING_TAGS_RE` (`(script|style|textarea|title)$`): raw-text
elements; the anchored match means the tag is exactly one of the names
(a closing form never matches). -/
def isRemovingName (tag : List Char) : Bool :=
  (["script", "style", "textarea", "title"].map String.toList).contains tag

/-- `_NEWLINE_TAGS_RE` (`br$`). -/
def isBrName (tag : List Char) : Bool := tag = ("br").toList

/-- The block-level element names of `_BLOCK_TAGS_RE`. -/
def blockNames : List (List Char) :=
  ["address", "blockquote", "dd", "div", "dl", "dt", "h1", "h2", "h3", "h4",
   "h5", "h6", "hr", "li", "ol", "p", "pre", "table", "tr", "ul"].map String.toList

/-- The forms matched by `_BLOCK_TAGS_RE` (`/?(...)$`): each block name
and its closing form. -/
def blockTagForms : List (List Char) :=
  blockNames ++ blockNames.map fun n => '/' :: n

/-- `_BLOCK_TAGS_RE` (`/?(...)$`): a block name or its closing form. -/
def isBlockName (tag : List Char) : Bool := blockTagForms.contains tag

/-- `_TAB_TAGS_RE` (`(td|th)$`). -/
def isTabName (tag : List Char) : Bool :=
  tag = ("td").toList || tag = ("th").toList

/-- `_TRAILING_NON_NEWLINE_RE.search` (`[^\n]\Z`): the buffer ends with a
character other than a newline (false on an empty buffer). -/
def trailingNonNewline (cs : List Char) : Bool :=
  match cs.getLast? with
  | some c => c ≠ '\n'
  | none => false

/-- `_TRAILING_NON_WHITESPACE_RE.search` (`[^ \t\r\n]\Z`). -/
def trailingNonWs (cs : List Char) : Bool :=
  match cs.getLast? with
  | some c => !isHtmlWs c
  | none => false

/-- `_HTML_WHITESPACE_RE.sub(' ', chunk)`: each run of HTML whitespace
becomes a single space. -/
def collapseWs : List Char → List Char
  | [] => []
  | [c] => if isHtmlWs c then [' '] else [c]
  | c :: c2 :: cs =>
    if isHtmlWs c then
      (if isHtmlWs c2 then collapseWs (c2 :: cs) else ' ' :: collapseWs (c2 :: cs))
    else c :: collapseWs (c2 :: cs)

/-- `_LEADING_SPACE_RE.sub('', chunk)` (`^ `): drop one leading space. -/
def dropLeadingSpace : List Char → List Char
  | ' ' :: cs => cs
  | cs => cs

/-- Modelled from the spec: `html.unescape` (Python standard library,
outside this repository) — "decode HTML entities"; a restricted entity
table suffices for the claims settled here. -/
def namedEntities : List (List Char × Char) :=
  [(("amp;").toList, '&'), (("lt;").toList, '<'), (("gt;").toList, '>'),
   (("quot;").toList, dquote), (("apos;").toList, squote),
   (("nbsp;").toList, Char.ofNat 160)]

/-- Modelled from the spec: a single entity-reference match after `&`. -/
def matchEntity (cs : List Char) : Option (Char × List Char) :=
  match namedEntities.find? (fun e => e.1.isPrefixOf cs) with
  | some e => some (e.2, cs.drop e.1.length)
  | none =>
    match cs with
    | '#' :: rest =>
      (match takeW isAsciiDigit rest, dropW isAsciiDigit rest with
       | ds, ';' :: r2 =>
         if ds.isEmpty then none else some (Char.ofNat (parseDigits ds), r2)
       | _, _ => none)
    | _ => none

/-- Modelled from the spec: fueled entity-decoding loop. -/
def unescapeAux : Nat → List Char → List Char
  | 0, cs => cs
  | _ + 1, [] => []
  | f + 1, c :: cs =>
    if c = '&' then
      match matchEntity cs with
      | some (ch, rest) => ch :: unescapeAux f rest
      | none => c :: unescapeAux f cs
    else c :: unescapeAux f cs

/-- Modelled from the spec: `html.unescape`. -/
def unescapeHtml (cs : List Char) : List Char := unescapeAux (cs.length + 1) cs

/-- The mutable state of the `html_to_text` loop. -/
structure H2TState where
  buf : List Char
  removingUntil : List Char
  stack : List WsFrame
deriving DecidableEq

/-- The buffer additions of the tag dispatch (`br` newline, block-tag
conditional newline, cell tab); raw-text openers add nothing. -/
def tagTextUpdate (text : List Char) (tag : List Char) : List Char :=
  if isRemovingName tag then text
  else if isBrName tag then text ++ ['\n']
  else if isBlockName tag then
    (if trailingNonNewline text then text ++ ['\n'] else text)
  else if isTabName tag then text ++ ['\t']
  else text

/-- Full tag dispatch outside a raw-text region: raw-text openers set
`removing_until`, the buffer update above runs, and non-void tags update
the whitespace stack. -/
def handleTag (st : H2TState) (tag : List Char) (attrs : List Char) : H2TState :=
  { buf := tagTextUpdate st.buf tag
    removingUntil := if isRemovingName tag then '/' :: tag else st.removingUntil
    stack :=
      if startsVoid tag then st.stack
      else updatePreserveWhitespaceStack tag attrs st.stack }

/-- Text-chunk handling: skipped inside a raw-text region; otherwise
entity-decoded, whitespace-collapsed when the active frame does not
preserve whitespace, with a single leading space dropped when the buffer
does not already end in non-whitespace. -/
def processChunk (st : H2TState) (chunk : List Char) : H2TState :=
  if st.removingUntil.isEmpty then
    let c1 := unescapeHtml chunk
    let c2 :=
      if shouldPreserveWs st.stack then c1
      else
        let cw := collapseWs c1
        if trailingNonWs st.buf then cw else dropLeadingSpace cw
    { st with buf := st.buf ++ c2 }
  else st

/-- One scan event of the `html_to_text` loop. -/
def h2tStep (st : H2TState) : Seg2 → H2TState
  | Seg2.t2 t => processChunk st t
  | Seg2.barren2 => st
  | Seg2.tag2 name attrs =>
    let tag := name.map lowerChar
    if st.removingUntil.isEmpty then handleTag st tag attrs
    else if st.removingUntil = tag then { st with removingUntil := [] }
    else st

/-- `html_to_text` on the content of a `SanitizedHtml` value. -/
def htmlToTextHtml (html : List Char) : List Char :=
  let fin := (scanTags2 html).foldl h2tStep ⟨[], [], []⟩
  fin.buf.map fun c => if c = Char.ofNat 160 then ' ' else c

/-- `html_to_text(value)`: `None` gives the empty string; a value that is
not a `SanitizedHtml` is returned as its literal string form; trusted
HTML runs the conversion machine. -/
def htmlToText (value : SoyValue) : List Char :=
  match value with
  | SoyValue.noneV => []
  | v => if isHtmlValue v then htmlToTextHtml (strOf v) else strOf v

/-- Build a trusted-HTML value from a string. -/
def htmlValue (s : String) (d : Option Dir) : SoyValue :=
  SoyValue.sanitizedV ⟨ContentKind.html, s.toList, d⟩

/-! ## Helper lemmas -/

theorem popThroughTag_all_ne {name : List Char} :
    ∀ stack : List WsFrame, (∀ f ∈ stack, f.1 ≠ name) → popThroughTag name stack = [] := by
  intro stack h
  induction stack with
  | nil => rfl
  | cons f rest ih =>
    unfold popThroughTag
    rw [if_neg (h f (List.mem_cons_self ..))]
    exact ih fun g hg => h g (List.mem_cons_of_mem _ hg)

theorem findIdxO_eq_none {n : List Char} :
    ∀ stack : List (List Char), (∀ m ∈ stack, m ≠ n) → findIdxO n stack = none := by
  intro stack h
  induction stack with
  | nil => rfl
  | cons m rest ih =>
    unfold findIdxO
    rw [if_neg (h m (List.mem_cons_self ..)),
      ih fun g hg => h g (List.mem_cons_of_mem _ hg)]
    rfl

theorem isBlockName_not_removing {tag : List Char} (h : isBlockName tag = true) :
    isRemovingName tag = false ∧ isBrName tag = false := by
  have hm : tag ∈ blockTagForms := by
    have h2 := h
    unfold isBlockName at h2
    exact List.elem_iff.mp h2
  fin_cases hm <;> decide

theorem trailingNonNewline_iff (text : List Char) :
    trailingNonNewline text = true ↔ text ≠ [] ∧ text.getLast? ≠ some '\n' := by
  unfold trailingNonNewline
  cases hL : text.getLast? with
  | none =>
    have : text = [] := List.getLast?_eq_none_iff.mp hL
    simp [this]
  | some c =>
    have hne : text ≠ [] := by
      intro hnil
      rw [hnil] at hL
      exact Option.noConfusion hL
    simp [hne, hL]

/-! ## Claim theorems: content model and `html_to_text` -/

/-- Claim C3: constructing a `SanitizedContent` fails exactly when the
approval is absent, or its justification is missing or shorter than 20
characters, or the target class has no concrete content kind; with a
concrete kind and a justification of length at least 20, construction
succeeds regardless of content. -/
theorem C3_construction_policy
    (kind : Option ContentKind) (content : List Char) (dir : Option Dir)
    (approval : Option Approval) :
    ((∃ e, mkSanitizedContent kind content dir approval = Except.error e) ↔
      (kind = none ∨ approval = none ∨
        ∃ a, approval = some a ∧
          (a.justification = none ∨
            ∃ j, a.justification = some j ∧ j.length < 20))) ∧
    (∀ k a j, kind = some k → approval = some a → a.justification = some j →
      20 ≤ j.length →
      mkSanitizedContent kind content dir approval = Except.ok ⟨k, content, dir⟩) := by
  constructor
  · rcases kind with _ | k
    · simp [mkSanitizedContent]
    · rcases approval with _ | a
      · simp [mkSanitizedContent]
      · rcases ha : a.justification with _ | j
        · simp [mkSanitizedContent, ha]
        · by_cases hl : j.length < 20
          · simp [mkSanitizedContent, ha, hl]
          · simp [mkSanitizedContent, ha, hl]
  · intro k a j hk hap hj hlen
    subst hk
    subst hap
    simp [mkSanitizedContent, hj, Nat.not_lt.mpr hlen]

theorem C3_witness :
    ((some ContentKind.html : Option ContentKind) = some ContentKind.html) ∧
    ((some (Approval.mk (some (("Escaped html is by nature sanitized.").toList))) :
        Option Approval) =
      some (Approval.mk (some (("Escaped html is by nature sanitized.").toList)))) ∧
    (Approval.mk (some (("Escaped html is by nature sanitized.").toList))).justification =
      some (("Escaped html is by nature sanitized.").toList) ∧
    20 ≤ (("Escaped html is by nature sanitized.").toList).length ∧
    mkSanitizedContent (some ContentKind.html) (("x").toList) none
        (some (Approval.mk (some (("Escaped html is by nature sanitized.").toList)))) =
      Except.ok ⟨ContentKind.html, ("x").toList, none⟩ :=
  ⟨rfl, rfl, rfl, by decide,
    (C3_construction_policy (some ContentKind.html) (("x").toList) none
      (some (Approval.mk (some (("Escaped html is by nature sanitized.").toList))))).2
      ContentKind.html _ _ rfl rfl rfl (by decide)⟩

/-- Claim C9: in `clean_html`, a value already tagged as HTML is
re-wrapped with exactly the same content string and the same
directionality, with no tag filtering at all, whatever `safe_tags` is. -/
theorem C9_clean_html_html_passthrough
    (content : List Char) (d : Option Dir) (safeTags : List (List Char)) :
    cleanHtml (SoyValue.sanitizedV ⟨ContentKind.html, content, d⟩) safeTags =
      ⟨ContentKind.html, content, d⟩ := by
  unfold cleanHtml
  simp

/-- Claim C10: a closing tag matching no frame on the whitespace stack
pops every frame, and the empty stack means collapsing mode. -/
theorem C10_stray_close_empties_stack
    (name attrs : List Char) (stack : List WsFrame)
    (h : ∀ f ∈ stack, f.1 ≠ name) :
    updatePreserveWhitespaceStack ('/' :: name) attrs stack = [] ∧
    shouldPreserveWs (updatePreserveWhitespaceStack ('/' :: name) attrs stack) = false := by
  have he : updatePreserveWhitespaceStack ('/' :: name) attrs stack = [] := by
    unfold updatePreserveWhitespaceStack
    simp [popThroughTag_all_ne stack h]
  exact ⟨he, by rw [he]; rfl⟩

theorem C10_witness :
    (∀ f ∈ [((("pre").toList, true) : WsFrame)], f.1 ≠ ("q").toList) ∧
    (updatePreserveWhitespaceStack ('/' :: ("q").toList) [] [(("pre").toList, true)] = [] ∧
      shouldPreserveWs
        (updatePreserveWhitespaceStack ('/' :: ("q").toList) [] [(("pre").toList, true)]) = false) :=
  ⟨by decide, C10_stray_close_empties_stack _ _ _ (by decide)⟩

/-- Claim C7, counterexample: on an empty buffer — which does not end with
a newline — a block tag appends no newline (`[^\n]\Z` fails on the empty
string), contradicting the claim that a newline is appended whenever the
buffer does not already end with one, "including the empty buffer". -/
theorem C7_counterexample :
    ([] : List Char).getLast? ≠ some '\n' ∧
    isBlockName (("p").toList) = true ∧
    tagTextUpdate [] (("p").toList) = [] ∧
    htmlToText (htmlValue "<p>x" none) = ("x").toList := by decide

/-- Claim C7, amended: for a block-level tag processed outside a raw-text
region, a newline is appended to the buffer iff the buffer is nonempty
and its last character is not a newline. -/
theorem C7_block_newline (text tag : List Char) (h : isBlockName tag = true) :
    tagTextUpdate text tag =
      if text ≠ [] ∧ text.getLast? ≠ some '\n' then text ++ ['\n'] else text := by
  obtain ⟨hr, hb⟩ := isBlockName_not_removing h
  unfold tagTextUpdate
  rw [hr, hb, h]
  by_cases hc : text ≠ [] ∧ text.getLast? ≠ some '\n'
  · rw [if_pos ((trailingNonNewline_iff text).mpr hc), if_pos hc]
    simp
  · rw [if_neg hc]
    have hT : trailingNonNewline text = false :=
      Bool.not_eq_true _ ▸ Bool.eq_false_iff.mpr fun hT =>
        hc ((trailingNonNewline_iff text).mp hT)
    simp [hT]

theorem C7_witness :
    isBlockName (("p").toList) = true ∧
    tagTextUpdate (("a").toList) (("p").toList) =
      (if ("a").toList ≠ [] ∧ (("a").toList).getLast? ≠ some '\n'
       then ("a").toList ++ ['\n'] else ("a").toList) :=
  ⟨by decide, C7_block_newline _ _ (by decide)⟩

/-- Claim C8, counterexample: `html_to_text(None)` returns the empty
string, not the literal string form of `None`. -/
theorem C8_counterexample :
    htmlToText SoyValue.noneV = [] ∧
    strOf SoyValue.noneV = ("None").toList ∧
    htmlToText SoyValue.noneV ≠ strOf SoyValue.noneV := by decide

/-- Claim C8, amended: every value other than `None` that is not tagged
as HTML is returned as its literal string form, unchanged. -/
theorem C8_nonhtml_passthrough (v : SoyValue) (h1 : v ≠ SoyValue.noneV)
    (h2 : isHtmlValue v = false) : htmlToText v = strOf v := by
  cases v with
  | noneV => exact absurd rfl h1
  | strV s => simp [htmlToText, strOf, isHtmlValue]
  | sanitizedV w => simp [htmlToText, h2]

theorem C8_witness :
    (SoyValue.strV (("ab").toList) ≠ SoyValue.noneV) ∧
    isHtmlValue (SoyValue.strV (("ab").toList)) = false ∧
    htmlToText (SoyValue.strV (("ab").toList)) = strOf (SoyValue.strV (("ab").toList)) :=
  ⟨by decide, by decide, C8_nonhtml_passthrough _ (by decide) (by decide)⟩

/-- Claim C6: the whole body of a raw-text element, tag-shaped text
included, is discarded until the matching closing tag, after which normal
processing resumes. -/
theorem C6_script_raw_text :
    htmlToText (SoyValue.sanitizedV ⟨ContentKind.html,
      ("<script>alert(").toList ++ squote :: ("<p>x</p>").toList ++
        squote :: (")</script>Done").toList, none⟩) = ("Done").toList := by decide

/-! ## Claim theorems: whitelist filter, concrete -/

/-- Claim C2, counterexample: the filter with whitelist `{b}` on
`<b>ok<i>bad</i></b>` does not return `<b>ok</b>` — the inner text of the
removed `<i>` element is kept. -/
theorem C2_counterexample :
    stripHtmlTagsS "<b>ok<i>bad</i></b>" ["b"] ≠ "<b>ok</b>" := by decide

/-- Claim C2, amended: the filter removes the non-whitelisted tags but
keeps their text content, returning `<b>okbad</b>`. -/
theorem C2_kept_content :
    stripHtmlTagsS "<b>ok<i>bad</i></b>" ["b"] = "<b>okbad</b>" := by decide

/-- Claim C4: a closing token whose name matches nothing on the open-tag
stack is replaced by the empty replacement (closing nothing), and
concretely `</table><tr>x</tr>` under whitelist `{table,tr}` drops the
leading `</table>` and balances `<tr>x</tr>` normally. -/
theorem C4_dangling_close :
    (∀ (n : List Char) (rest : List Tok) (stack : List (List Char)),
        (∀ m ∈ stack, m ≠ n) →
        (balanceAux (Tok.mk true n :: rest) stack).1 = [] :: (balanceAux rest stack).1) ∧
    stripHtmlTagsS "</table><tr>x</tr>" ["table", "tr"] = "<tr>x</tr>" := by
  constructor
  · intro n rest stack h
    have hf := findIdxO_eq_none stack h
    simp [balanceAux, hf]
  · decide

theorem C4_witness :
    (∀ m ∈ [("b").toList], m ≠ ("table").toList) ∧
    (balanceAux (Tok.mk true (("table").toList) :: []) [("b").toList]).1 =
      [] :: (balanceAux [] [("b").toList]).1 :=
  ⟨by decide, C4_dangling_close.1 _ _ _ (by decide)⟩

/-! ## Balance lemmas -/

theorem flatT_cons (l : List Tok) (ls : List (List Tok)) :
    flatT (l :: ls) = l ++ flatT ls := rfl

theorem chkBal_close_nil (n : List Char) (ts : List Tok) :
    chkBal [] (Tok.mk true n :: ts) = false := rfl

theorem chkBal_close_cons (m : List Char) (stack : List (List Char)) (n : List Char)
    (ts : List Tok) :
    chkBal (m :: stack) (Tok.mk true n :: ts) =
      if m = n then chkBal stack ts else false := rfl

theorem chkBal_open (stack : List (List Char)) (n : List Char) (ts : List Tok) :
    chkBal stack (Tok.mk false n :: ts) =
      if startsVoid n then chkBal stack ts else chkBal (n :: stack) ts := rfl

theorem balanceAux_close_none {n : List Char} {stack : List (List Char)}
    (hf : findIdxO n stack = none) (rest : List Tok) :
    balanceAux (Tok.mk true n :: rest) stack =
      ([] :: (balanceAux rest stack).1, (balanceAux rest stack).2) := by
  simp [balanceAux, hf]

theorem balanceAux_close_some {n : List Char} {stack : List (List Char)} {j : Nat}
    (hf : findIdxO n stack = some j) (rest : List Tok) :
    balanceAux (Tok.mk true n :: rest) stack =
      ((stack.take (j + 1)).map (fun m => Tok.mk true m) ::
          (balanceAux rest (stack.drop (j + 1))).1,
        (balanceAux rest (stack.drop (j + 1))).2) := by
  simp [balanceAux, hf]

theorem balanceAux_open_void {n : List Char} (hv : startsVoid n = true)
    (rest : List Tok) (stack : List (List Char)) :
    balanceAux (Tok.mk false n :: rest) stack =
      ([Tok.mk false n] :: (balanceAux rest stack).1, (balanceAux rest stack).2) := by
  simp [balanceAux, hv]

theorem balanceAux_open_push {n : List Char} (hv : startsVoid n = false)
    (rest : List Tok) (stack : List (List Char)) :
    balanceAux (Tok.mk false n :: rest) stack =
      ([Tok.mk false n] :: (balanceAux rest (n :: stack)).1,
        (balanceAux rest (n :: stack)).2) := by
  simp [balanceAux, hv]

theorem chkBal_closers (pre : List (List Char)) :
    ∀ (stack : List (List Char)) (k : List Tok),
      chkBal (pre ++ stack) ((pre.map fun n => Tok.mk true n) ++ k) = chkBal stack k := by
  induction pre with
  | nil => intro stack k; rfl
  | cons n pre ih =>
    intro stack k
    show chkBal (n :: (pre ++ stack)) (Tok.mk true n :: ((pre.map fun n => Tok.mk true n) ++ k)) = _
    rw [chkBal_close_cons, if_pos rfl]
    exact ih stack k

theorem chkBal_balanceAux :
    ∀ (toks : List Tok) (stack : List (List Char)) (k : List Tok),
      chkBal stack (flatT (balanceAux toks stack).1 ++ k) =
        chkBal (balanceAux toks stack).2 k := by
  intro toks
  induction toks with
  | nil => intro stack k; rfl
  | cons t rest ih =>
    obtain ⟨cl, nm⟩ := t
    intro stack k
    cases cl with
    | true =>
      cases hf : findIdxO nm stack with
      | none =>
        rw [balanceAux_close_none hf]
        simpa [flatT] using ih stack k
      | some j =>
        rw [balanceAux_close_some hf]
        simp only [flatT_cons, List.append_assoc]
        have hsplit : stack = stack.take (j + 1) ++ stack.drop (j + 1) :=
          (List.take_append_drop _ _).symm
        nth_rewrite 1 [hsplit]
        rw [chkBal_closers (stack.take (j + 1)) (stack.drop (j + 1))]
        exact ih (stack.drop (j + 1)) k
    | false =>
      by_cases hv : startsVoid nm = true
      · rw [balanceAux_open_void hv]
        simp only [flatT_cons, List.singleton_append, List.cons_append]
        rw [chkBal_open, if_pos hv]
        exact ih stack k
      · have hv' : startsVoid nm = false := Bool.eq_false_iff.mpr hv
        rw [balanceAux_open_push hv']
        simp only [flatT_cons, List.singleton_append, List.cons_append]
        rw [chkBal_open, if_neg (by simp [hv'])]
        exact ih (nm :: stack) k

theorem chkBal_closersFor (stack : List (List Char)) :
    chkBal stack (closersFor stack) = true := by
  have h := chkBal_closers stack [] []
  simpa [closersFor] using h

/-- The balanced replacement sequence followed by the auto-close suffix is
well-nested. -/
theorem chkBal_balanceTags (toks : List Tok) :
    chkBal [] (flatT (balanceTags toks).1 ++ (balanceTags toks).2) = true := by
  unfold balanceTags
  rw [chkBal_balanceAux toks [] (closersFor (balanceAux toks []).2)]
  exact chkBal_closersFor _

/-- On a well-nested token sequence the balancer is the identity: every
token is its own replacement and nothing is left open. -/
theorem balanceAux_of_chkBal :
    ∀ (toks : List Tok) (stack : List (List Char)),
      chkBal stack toks = true →
      balanceAux toks stack = (toks.map fun t => [t], []) := by
  intro toks
  induction toks with
  | nil =>
    intro stack h
    cases stack with
    | nil => rfl
    | cons a s => simp [chkBal] at h
  | cons t rest ih =>
    obtain ⟨cl, nm⟩ := t
    intro stack h
    cases cl with
    | true =>
      cases stack with
      | nil => rw [chkBal_close_nil] at h; exact absurd h (by simp)
      | cons m s =>
        rw [chkBal_close_cons] at h
        by_cases hm : m = nm
        · subst hm
          have hf : findIdxO m (m :: s) = some 0 := by simp [findIdxO]
          rw [balanceAux_close_some hf]
          rw [if_pos rfl] at h
          simp [ih s h]
        · rw [if_neg hm] at h
          exact absurd h (by simp)
    | false =>
      rw [chkBal_open] at h
      by_cases hv : startsVoid nm = true
      · rw [if_pos hv] at h
        rw [balanceAux_open_void hv, ih stack h]
        simp
      · have hv' : startsVoid nm = false := Bool.eq_false_iff.mpr hv
        rw [if_neg (by simp [hv'])] at h
        rw [balanceAux_open_push hv', ih (nm :: stack) h]
        simp

/-- Every name in the balancer output (replacements and suffix) comes from
an input opening token or from the initial stack. -/
theorem balanceAux_names (P : List Char → Prop) :
    ∀ (toks : List Tok) (stack : List (List Char)),
      (∀ t ∈ toks, t.cl = false → P t.name) →
      (∀ n ∈ stack, P n) →
      (∀ t ∈ flatT (balanceAux toks stack).1, P t.name) ∧
      (∀ n ∈ (balanceAux toks stack).2, P n) := by
  intro toks
  induction toks with
  | nil =>
    intro stack _ hs
    exact ⟨by simp [balanceAux, flatT], hs⟩
  | cons t rest ih =>
    obtain ⟨cl, nm⟩ := t
    intro stack ht hs
    have htr : ∀ t ∈ rest, t.cl = false → P t.name := fun t h => ht t (List.mem_cons_of_mem _ h)
    cases cl with
    | true =>
      cases hf : findIdxO nm stack with
      | none =>
        rw [balanceAux_close_none hf]
        have := ih stack htr hs
        exact ⟨by simpa [flatT] using this.1, this.2⟩
      | some j =>
        rw [balanceAux_close_some hf]
        have hdrop : ∀ n ∈ stack.drop (j + 1), P n := fun n hn =>
          hs n (List.mem_of_mem_drop hn)
        have := ih (stack.drop (j + 1)) htr hdrop
        refine ⟨?_, this.2⟩
        intro u hu
        rw [flatT_cons] at hu
        rcases List.mem_append.mp hu with hu | hu
        · obtain ⟨m, hm, rfl⟩ := List.mem_map.mp hu
          exact hs m (List.mem_of_mem_take hm)
        · exact this.1 u hu
    | false =>
      have hP : P nm := ht _ (List.mem_cons_self ..) rfl
      by_cases hv : startsVoid nm = true
      · rw [balanceAux_open_void hv]
        have := ih stack htr hs
        refine ⟨?_, this.2⟩
        intro u hu
        rw [flatT_cons] at hu
        rcases List.mem_append.mp hu with hu | hu
        · rcases List.mem_singleton.mp hu with rfl
          exact hP
        · exact this.1 u hu
      · have hv' : startsVoid nm = false := Bool.eq_false_iff.mpr hv
        rw [balanceAux_open_push hv']
        have hs' : ∀ n ∈ nm :: stack, P n := by
          intro n hn
          rcases List.mem_cons.mp hn with rfl | hn
          · exact hP
          · exact hs n hn
        have := ih (nm :: stack) htr hs'
        refine ⟨?_, this.2⟩
        intro u hu
        rw [flatT_cons] at hu
        rcases List.mem_append.mp hu with hu | hu
        · rcases List.mem_singleton.mp hu with rfl
          exact hP
        · exact this.1 u hu

/-- The balancer yields one replacement list per input token. -/
theorem balanceAux_length :
    ∀ (toks : List Tok) (stack : List (List Char)),
      (balanceAux toks stack).1.length = toks.length := by
  intro toks
  induction toks with
  | nil => intro stack; rfl
  | cons t rest ih =>
    obtain ⟨cl, nm⟩ := t
    intro stack
    cases cl with
    | true =>
      cases hf : findIdxO nm stack with
      | none => rw [balanceAux_close_none hf]; simp [ih]
      | some j => rw [balanceAux_close_some hf]; simp [ih]
    | false =>
      by_cases hv : startsVoid nm = true
      · rw [balanceAux_open_void hv]; simp [ih]
      · rw [balanceAux_open_push (Bool.eq_false_iff.mpr hv)]; simp [ih]

/-! ## Scanner lemmas -/

theorem takeW_all (p : Char → Bool) : ∀ cs, ∀ c ∈ takeW p cs, p c = true := by
  intro cs
  induction cs with
  | nil => intro c h; simp [takeW] at h
  | cons a cs ih =>
    intro c h
    unfold takeW at h
    by_cases hp : p a = true
    · rw [if_pos hp] at h
      rcases List.mem_cons.mp h with rfl | h
      · exact hp
      · exact ih c h
    · rw [if_neg hp] at h
      simp at h

theorem dropW_length_le (p : Char → Bool) : ∀ cs, (dropW p cs).length ≤ cs.length := by
  intro cs
  induction cs with
  | nil => simp [dropW]
  | cons a cs ih =>
    unfold dropW
    by_cases hp : p a = true
    · rw [if_pos hp]
      exact Nat.le_trans ih (Nat.le_succ _)
    · rw [if_neg hp]

theorem dropW_sub (p : Char → Bool) : ∀ cs, ∀ c ∈ dropW p cs, c ∈ cs := by
  intro cs
  induction cs with
  | nil => intro c h; simp [dropW] at h
  | cons a cs ih =>
    intro c h
    unfold dropW at h
    by_cases hp : p a = true
    · rw [if_pos hp] at h
      exact List.mem_cons_of_mem _ (ih c h)
    · rw [if_neg hp] at h
      exact h

theorem takeW_append_stop (p : Char → Bool) :
    ∀ (t : List Char) (c : Char) (r : List Char),
      (∀ x ∈ t, p x = true) → p c = false →
      takeW p (t ++ c :: r) = t ∧ dropW p (t ++ c :: r) = c :: r := by
  intro t
  induction t with
  | nil =>
    intro c r _ hc
    constructor
    · show takeW p (c :: r) = []
      unfold takeW
      rw [if_neg (by simp [hc])]
    · show dropW p (c :: r) = c :: r
      unfold dropW
      rw [if_neg (by simp [hc])]
  | cons a t ih =>
    intro c r ht hc
    have ha : p a = true := ht a (List.mem_cons_self ..)
    have ht' : ∀ x ∈ t, p x = true := fun x hx => ht x (List.mem_cons_of_mem _ hx)
    obtain ⟨h1, h2⟩ := ih c r ht' hc
    constructor
    · show takeW p (a :: (t ++ c :: r)) = a :: t
      unfold takeW
      rw [if_pos ha, h1]
    · show dropW p (a :: (t ++ c :: r)) = c :: r
      unfold dropW
      rw [if_pos ha, h2]

theorem scanBodyAcc_some :
    ∀ (cs : List Char) (m : BodyMode) (acc b rest : List Char),
      scanBodyAcc m acc cs = some (b, rest) →
      rest.length < cs.length ∧ ∀ c ∈ rest, c ∈ cs := by
  intro cs
  induction cs with
  | nil => intro m acc b rest h; cases m <;> simp [scanBodyAcc] at h
  | cons a cs ih =>
    intro m acc b rest h
    cases m with
    | normal =>
      unfold scanBodyAcc at h
      by_cases h1 : a = '>'
      · rw [if_pos h1] at h
        obtain ⟨_, h3⟩ : b = acc.reverse ∧ rest = cs := by
          constructor <;> [exact (Prod.mk.injEq .. ▸ Option.some.injEq .. ▸ h).1.symm ▸ rfl;
            exact ((Prod.mk.injEq ..).mp (Option.some.injEq .. |>.mp h)).2.symm]
        subst h3
        exact ⟨Nat.lt_succ_of_le (Nat.le_refl _), fun c hc => List.mem_cons_of_mem _ hc⟩
      · rw [if_neg h1] at h
        by_cases h2 : a = dquote
        · rw [if_pos h2] at h
          obtain ⟨hl, hs⟩ := ih _ _ _ _ h
          exact ⟨Nat.lt_trans hl (Nat.lt_succ_self _),
            fun c hc => List.mem_cons_of_mem _ (hs c hc)⟩
        · rw [if_neg h2] at h
          by_cases h3 : a = squote
          · rw [if_pos h3] at h
            obtain ⟨hl, hs⟩ := ih _ _ _ _ h
            exact ⟨Nat.lt_trans hl (Nat.lt_succ_self _),
              fun c hc => List.mem_cons_of_mem _ (hs c hc)⟩
          · rw [if_neg h3] at h
            obtain ⟨hl, hs⟩ := ih _ _ _ _ h
            exact ⟨Nat.lt_trans hl (Nat.lt_succ_self _),
              fun c hc => List.mem_cons_of_mem _ (hs c hc)⟩
    | inDouble =>
      unfold scanBodyAcc at h
      by_cases h2 : a = dquote
      · rw [if_pos h2] at h
        obtain ⟨hl, hs⟩ := ih _ _ _ _ h
        exact ⟨Nat.lt_trans hl (Nat.lt_succ_self _),
          fun c hc => List.mem_cons_of_mem _ (hs c hc)⟩
      · rw [if_neg h2] at h
        obtain ⟨hl, hs⟩ := ih _ _ _ _ h
        exact ⟨Nat.lt_trans hl (Nat.lt_succ_self _),
          fun c hc => List.mem_cons_of_mem _ (hs c hc)⟩
    | inSingle =>
      unfold scanBodyAcc at h
      by_cases h2 : a = squote
      · rw [if_pos h2] at h
        obtain ⟨hl, hs⟩ := ih _ _ _ _ h
        exact ⟨Nat.lt_trans hl (Nat.lt_succ_self _),
          fun c hc => List.mem_cons_of_mem _ (hs c hc)⟩
      · rw [if_neg h2] at h
        obtain ⟨hl, hs⟩ := ih _ _ _ _ h
        exact ⟨Nat.lt_trans hl (Nat.lt_succ_self _),
          fun c hc => List.mem_cons_of_mem _ (hs c hc)⟩

theorem parseName_some :
    ∀ (cs n rest : List Char), parseName cs = some (n, rest) →
      goodName n = true ∧ rest.length < cs.length ∧ (∀ c ∈ rest, c ∈ cs) := by
  intro cs n rest h
  cases cs with
  | nil => simp [parseName] at h
  | cons c cs =>
    simp only [parseName] at h
    by_cases hs : isNameStart c = true
    · rw [if_pos hs] at h
      obtain ⟨hn, hr⟩ := (Prod.mk.injEq ..).mp (Option.some.injEq .. |>.mp h)
      constructor
      · rw [← hn]
        show (isNameStart c && (takeW isNameChar cs).all isNameChar) = true
        rw [hs, Bool.true_and, List.all_eq_true]
        intro x hx
        exact takeW_all isNameChar cs x hx
      · rw [← hr]
        exact ⟨Nat.lt_succ_of_le (dropW_length_le _ _),
          fun x hx => List.mem_cons_of_mem _ (dropW_sub _ _ x hx)⟩
    · rw [if_neg hs] at h
      exact Option.noConfusion h

theorem parseTagAfterLt_some :
    ∀ (cs : List Char) (info : Option (Bool × List Char)) (rest : List Char),
      parseTagAfterLt cs = some (info, rest) →
      rest.length < cs.length ∧ (∀ c ∈ rest, c ∈ cs) ∧
        (∀ cl n, info = some (cl, n) → goodName n = true) := by
  intro cs info rest h
  cases cs with
  | nil => simp [parseTagAfterLt] at h
  | cons c cs =>
    simp only [parseTagAfterLt] at h
    by_cases h1 : c = '!'
    · rw [if_pos h1] at h
      cases hb : scanBodyAcc BodyMode.normal [] cs with
      | none => rw [hb] at h; exact Option.noConfusion h
      | some p =>
        obtain ⟨b, r⟩ := p
        rw [hb] at h
        obtain ⟨hi, hr⟩ := (Prod.mk.injEq ..).mp (Option.some.injEq .. |>.mp h)
        obtain ⟨hl, hsub⟩ := scanBodyAcc_some _ _ _ _ _ hb
        subst hr
        exact ⟨Nat.lt_trans hl (Nat.lt_succ_self _),
          fun x hx => List.mem_cons_of_mem _ (hsub x hx),
          fun cl n hn => by rw [← hi] at hn; exact Option.noConfusion hn⟩
    · rw [if_neg h1] at h
      by_cases h2 : c = '/'
      · rw [if_pos h2] at h
        cases hp : parseName cs with
        | none => rw [hp] at h; exact Option.noConfusion h
        | some q =>
          obtain ⟨n0, cs1⟩ := q
          rw [hp] at h
          simp only at h
          cases hb : scanBodyAcc BodyMode.normal [] cs1 with
          | none => rw [hb] at h; simp only at h; exact Option.noConfusion h
          | some p =>
            obtain ⟨b, r⟩ := p
            rw [hb] at h
            simp only at h
            obtain ⟨hi, hr⟩ := (Prod.mk.injEq ..).mp (Option.some.injEq .. |>.mp h)
            obtain ⟨hg, hl1, hsub1⟩ := parseName_some _ _ _ hp
            obtain ⟨hl2, hsub2⟩ := scanBodyAcc_some _ _ _ _ _ hb
            subst hr
            refine ⟨Nat.lt_trans (Nat.lt_trans hl2 hl1) (Nat.lt_succ_self _),
              fun x hx => List.mem_cons_of_mem _ (hsub1 x (hsub2 x hx)), ?_⟩
            intro cl n hn
            rw [← hi] at hn
            obtain ⟨_, hn2⟩ := (Prod.mk.injEq ..).mp (Option.some.injEq .. |>.mp hn)
            rw [← hn2]
            exact hg
      · rw [if_neg h2] at h
        cases hp : parseName (c :: cs) with
        | none => rw [hp] at h; exact Option.noConfusion h
        | some q =>
          obtain ⟨n0, cs1⟩ := q
          rw [hp] at h
          simp only at h
          cases hb : scanBodyAcc BodyMode.normal [] cs1 with
          | none => rw [hb] at h; simp only at h; exact Option.noConfusion h
          | some p =>
            obtain ⟨b, r⟩ := p
            rw [hb] at h
            simp only at h
            obtain ⟨hi, hr⟩ := (Prod.mk.injEq ..).mp (Option.some.injEq .. |>.mp h)
            obtain ⟨hg, hl1, hsub1⟩ := parseName_some _ _ _ hp
            obtain ⟨hl2, hsub2⟩ := scanBodyAcc_some _ _ _ _ _ hb
            subst hr
            refine ⟨Nat.lt_trans hl2 hl1, fun x hx => hsub1 x (hsub2 x hx), ?_⟩
            intro cl n hn
            rw [← hi] at hn
            obtain ⟨_, hn2⟩ := (Prod.mk.injEq ..).mp (Option.some.injEq .. |>.mp hn)
            rw [← hn2]
            exact hg

theorem goodName_cons (c : Char) (l : List Char) :
    goodName (c :: l) = (isNameStart c && l.all isNameChar) := rfl

theorem scanAux_nil (f : Nat) (acc : List Char) :
    scanAux f acc [] = [Seg.stext acc.reverse] := by
  cases f <;> simp [scanAux]

theorem scanAux_cons (f : Nat) (acc : List Char) (c : Char) (cs : List Char) :
    scanAux (f + 1) acc (c :: cs) =
      if c = '<' then
        (match parseTagAfterLt cs with
         | some (info, rest) =>
           Seg.stext (acc.reverse ++ []) ::
             (match info with
              | none => Seg.sbang
              | some (cl, n) => Seg.stag cl n) :: scanAux f [] rest
         | none => scanAux f (c :: acc) cs)
      else scanAux f (c :: acc) cs := rfl

theorem scanAux_fuel :
    ∀ (n : Nat) (cs : List Char), cs.length ≤ n →
      ∀ (acc : List Char) (f g : Nat), cs.length ≤ f → cs.length ≤ g →
        scanAux f acc cs = scanAux g acc cs := by
  intro n
  induction n with
  | zero =>
    intro cs hcs acc f g _ _
    have hnil : cs = [] := List.length_eq_zero.mp (Nat.le_zero.mp hcs)
    subst hnil
    rw [scanAux_nil, scanAux_nil]
  | succ n ih =>
    intro cs hcs acc f g hf hg
    cases cs with
    | nil => rw [scanAux_nil, scanAux_nil]
    | cons c cs =>
      cases f with
      | zero => exact absurd hf (by simp)
      | succ f =>
        cases g with
        | zero => exact absurd hg (by simp)
        | succ g =>
          rw [scanAux_cons, scanAux_cons]
          have hcs' : cs.length ≤ n := Nat.le_of_succ_le_succ hcs
          have hf' : cs.length ≤ f := Nat.le_of_succ_le_succ hf
          have hg' : cs.length ≤ g := Nat.le_of_succ_le_succ hg
          by_cases hc : c = '<'
          · rw [if_pos hc, if_pos hc]
            cases hp : parseTagAfterLt cs with
            | none => exact ih cs hcs' (c :: acc) f g hf' hg'
            | some p =>
              obtain ⟨info, rest⟩ := p
              obtain ⟨hl, _, _⟩ := parseTagAfterLt_some _ _ _ hp
              simp only
              rw [ih rest (Nat.le_of_lt (Nat.lt_of_lt_of_le hl hcs')) []
                f g (Nat.le_of_lt (Nat.lt_of_lt_of_le hl hf')) (Nat.le_of_lt (Nat.lt_of_lt_of_le hl hg'))]
          · rw [if_neg hc, if_neg hc]
            exact ih cs hcs' (c :: acc) f g hf' hg'

theorem scanAux_text :
    ∀ (t acc rest : List Char) (f : Nat),
      (∀ c ∈ t, c ≠ '<') → (t ++ rest).length ≤ f →
      scanAux f acc (t ++ rest) = scanAux rest.length (t.reverse ++ acc) rest := by
  intro t
  induction t with
  | nil =>
    intro acc rest f _ hf
    simp only [List.nil_append, List.reverse_nil]
    exact scanAux_fuel rest.length rest (Nat.le_refl _) acc f rest.length
      (by simpa using hf) (Nat.le_refl _)
  | cons a t ih =>
    intro acc rest f ha hf
    cases f with
    | zero => exact absurd hf (by simp)
    | succ f =>
      rw [List.cons_append, scanAux_cons, if_neg (ha a (List.mem_cons_self ..))]
      rw [ih (a :: acc) rest f (fun c hc => ha c (List.mem_cons_of_mem _ hc))
        (by simpa using Nat.le_of_succ_le_succ hf)]
      simp [List.reverse_cons, List.append_assoc]

theorem mem_lower_ne : ∀ c ∈ lowerLetters, c ≠ '!' ∧ c ≠ '/' ∧ c ≠ '<' := by decide

theorem mem_upper_ne : ∀ c ∈ upperLetters, c ≠ '!' ∧ c ≠ '/' ∧ c ≠ '<' := by decide

theorem isNameStart_ne {c : Char} (h : isNameStart c = true) :
    c ≠ '!' ∧ c ≠ '/' ∧ c ≠ '<' := by
  unfold isNameStart at h
  rcases Bool.or_eq_true_iff.mp h with h | h
  · exact mem_lower_ne c (List.elem_iff.mp h)
  · exact mem_upper_ne c (List.elem_iff.mp h)

theorem parseName_exact {nm : List Char} (rest : List Char) (hg : goodName nm = true) :
    parseName (nm ++ '>' :: rest) = some (nm, '>' :: rest) := by
  cases nm with
  | nil => simp [goodName] at hg
  | cons c l =>
    rw [goodName_cons, Bool.and_eq_true, List.all_eq_true] at hg
    obtain ⟨hs, hl⟩ := hg
    rw [List.cons_append]
    show parseName (c :: (l ++ '>' :: rest)) = _
    simp only [parseName]
    rw [if_pos hs]
    obtain ⟨h1, h2⟩ := takeW_append_stop isNameChar l '>' rest hl (by decide)
    rw [h1, h2]

theorem parseTag_open {nm : List Char} (rest : List Char) (hg : goodName nm = true) :
    parseTagAfterLt (nm ++ '>' :: rest) = some (some (false, nm), rest) := by
  cases hnm : nm with
  | nil => rw [hnm] at hg; simp [goodName] at hg
  | cons c l =>
    rw [hnm] at hg
    rw [goodName_cons, Bool.and_eq_true] at hg
    obtain ⟨hne1, hne2, _⟩ := isNameStart_ne hg.1
    rw [List.cons_append]
    show parseTagAfterLt (c :: (l ++ '>' :: rest)) = _
    simp only [parseTagAfterLt]
    rw [if_neg hne1, if_neg hne2]
    have hgood : goodName (c :: l) = true := by
      rw [goodName_cons, Bool.and_eq_true]
      exact hg
    have hp := parseName_exact rest hgood
    rw [show (c :: (l ++ '>' :: rest)) = (c :: l) ++ '>' :: rest from rfl, hp]
    simp only
    rfl

theorem parseTag_close {nm : List Char} (rest : List Char) (hg : goodName nm = true) :
    parseTagAfterLt ('/' :: (nm ++ '>' :: rest)) = some (some (true, nm), rest) := by
  show parseTagAfterLt ('/' :: (nm ++ '>' :: rest)) = _
  simp only [parseTagAfterLt]
  rw [if_pos trivial, parseName_exact rest hg]
  simp only
  rfl

theorem renderTok_eq (cl : Bool) (nm : List Char) :
    renderTok (Tok.mk cl nm) =
      if cl then '<' :: '/' :: (nm ++ ['>']) else '<' :: (nm ++ ['>']) := rfl

theorem scanAux_tok (cl : Bool) (nm rest acc : List Char) (f : Nat)
    (hg : goodName nm = true)
    (hf : (renderTok (Tok.mk cl nm) ++ rest).length ≤ f) :
    scanAux f acc (renderTok (Tok.mk cl nm) ++ rest) =
      Seg.stext acc.reverse :: Seg.stag cl nm :: scanAux rest.length [] rest := by
  have hmid : ∀ xs : List Char, (xs ++ ['>']) ++ rest = xs ++ '>' :: rest := by
    intro xs; rw [List.append_assoc]; rfl
  cases cl with
  | false =>
    rw [renderTok_eq] at hf ⊢
    rw [if_neg (by decide : ¬(false = true))] at hf ⊢
    cases f with
    | zero => exact absurd hf (by simp)
    | succ f =>
      rw [List.cons_append, scanAux_cons, if_pos rfl, hmid, parseTag_open rest hg]
      simp only [List.append_nil]
      rw [scanAux_fuel rest.length rest (Nat.le_refl _) [] f rest.length ?hfl (Nat.le_refl _)]
      case hfl =>
        simp only [List.cons_append, List.length_cons, hmid, List.length_append,
          List.length_cons] at hf
        omega
  | true =>
    rw [renderTok_eq] at hf ⊢
    rw [if_pos rfl] at hf ⊢
    cases f with
    | zero => exact absurd hf (by simp)
    | succ f =>
      rw [List.cons_append, scanAux_cons, if_pos rfl, List.cons_append, hmid,
        parseTag_close rest hg]
      simp only [List.append_nil]
      rw [scanAux_fuel rest.length rest (Nat.le_refl _) [] f rest.length ?hfl (Nat.le_refl _)]
      case hfl =>
        simp only [List.cons_append, List.length_cons, hmid, List.length_append,
          List.length_cons] at hf
        omega

/-- Characters of text runs in the scan come from the input (or the
accumulator), and every tag name in the scan is well-formed. -/
theorem scanAux_props (q : Char → Prop) :
    ∀ (f : Nat) (acc cs : List Char),
      (∀ c ∈ acc, q c) → (∀ c ∈ cs, q c) →
      (∀ t, Seg.stext t ∈ scanAux f acc cs → ∀ c ∈ t, q c) ∧
      (∀ cl nm, Seg.stag cl nm ∈ scanAux f acc cs → goodName nm = true) := by
  intro f
  induction f with
  | zero =>
    intro acc cs hacc hcs
    constructor
    · intro t ht c hc
      simp only [scanAux, List.mem_singleton] at ht
      obtain rfl := (Seg.stext.injEq ..).mp ht.symm
      rcases List.mem_append.mp hc with hc | hc
      · exact hacc c (List.mem_reverse.mp hc)
      · exact hcs c hc
    · intro cl nm h
      simp [scanAux] at h
  | succ f ih =>
    intro acc cs hacc hcs
    cases cs with
    | nil =>
      constructor
      · intro t ht c hc
        rw [scanAux_nil] at ht
        obtain rfl := (Seg.stext.injEq ..).mp (List.mem_singleton.mp ht).symm
        exact hacc c (List.mem_reverse.mp hc)
      · intro cl nm h
        rw [scanAux_nil] at h
        simp at h
    | cons a cs =>
      have hcs' : ∀ c ∈ cs, q c := fun c hc => hcs c (List.mem_cons_of_mem _ hc)
      have hacc' : ∀ c ∈ a :: acc, q c := by
        intro c hc
        rcases List.mem_cons.mp hc with h | hc
        · exact h ▸ hcs a (List.mem_cons_self ..)
        · exact hacc c hc
      rw [scanAux_cons]
      by_cases hc : a = '<'
      · rw [if_pos hc]
        cases hp : parseTagAfterLt cs with
        | none => exact ih (a :: acc) cs hacc' hcs'
        | some p =>
          obtain ⟨info, rest⟩ := p
          obtain ⟨_, hsub, hgood⟩ := parseTagAfterLt_some _ _ _ hp
          have hrest : ∀ c ∈ rest, q c := fun c hc => hcs' c (hsub c hc)
          obtain ⟨ihtext, ihtag⟩ := ih [] rest (by simp) hrest
          simp only
          constructor
          · intro t ht c hct
            rcases List.mem_cons.mp ht with heq | ht
            · obtain rfl := (Seg.stext.injEq ..).mp heq.symm
              rcases List.mem_append.mp hct with hct | hct
              · exact hacc c (List.mem_reverse.mp hct)
              · simp at hct
            · rcases List.mem_cons.mp ht with heq | ht
              · cases info with
                | none => simp at heq
                | some pr =>
                  obtain ⟨cl0, n0⟩ := pr
                  simp at heq
              · exact ihtext t ht c hct
          · intro cl nm ht
            rcases List.mem_cons.mp ht with heq | ht
            · simp at heq
            · rcases List.mem_cons.mp ht with heq | ht
              · cases info with
                | none => simp at heq
                | some pr =>
                  obtain ⟨cl0, n0⟩ := pr
                  simp only at heq
                  obtain ⟨hcl2, hn⟩ := (Seg.stag.injEq ..).mp heq
                  rw [hn]
                  exact hgood cl0 n0 rfl
              · exact ihtag cl nm ht
      · rw [if_neg hc]
        exact ih (a :: acc) cs hacc' hcs'

theorem renderItems_append :
    ∀ a b : List Item, renderItems (a ++ b) = renderItems a ++ renderItems b := by
  intro a b
  induction a with
  | nil => rfl
  | cons it rest ih =>
    cases it with
    | itxt t => show t ++ renderItems (rest ++ b) = (t ++ renderItems rest) ++ _
                rw [ih, List.append_assoc]
    | itok k => show renderTok k ++ renderItems (rest ++ b) = (renderTok k ++ renderItems rest) ++ _
                rw [ih, List.append_assoc]

theorem itemToks_append :
    ∀ a b : List Item, itemToks (a ++ b) = itemToks a ++ itemToks b := by
  intro a b
  induction a with
  | nil => rfl
  | cons it rest ih =>
    cases it with
    | itxt t => exact ih
    | itok k => show k :: itemToks (rest ++ b) = _
                rw [ih]; rfl

theorem renderItems_map_itok :
    ∀ ts : List Tok, renderItems (ts.map Item.itok) = renderToks ts := by
  intro ts
  induction ts with
  | nil => rfl
  | cons k rest ih =>
    show renderTok k ++ renderItems (rest.map Item.itok) = renderTok k ++ renderToks rest
    rw [ih]

theorem itemToks_map_itok :
    ∀ ts : List Tok, itemToks (ts.map Item.itok) = ts := by
  intro ts
  induction ts with
  | nil => rfl
  | cons k rest ih =>
    show k :: itemToks (rest.map Item.itok) = k :: rest
    rw [ih]

/-- Scanning a rendered item sequence yields exactly its text chunks and
tag events. -/
theorem scanAux_renderItems :
    ∀ (items : List Item) (acc : List Char) (f : Nat),
      (∀ t, Item.itxt t ∈ items → ∀ c ∈ t, c ≠ '<') →
      (∀ k, Item.itok k ∈ items → goodName k.name = true) →
      (renderItems items).length ≤ f →
      scanAux f acc (renderItems items) = scanItemsExp acc items := by
  intro items
  induction items with
  | nil =>
    intro acc f _ _ _
    show scanAux f acc [] = _
    rw [scanAux_nil]
    rfl
  | cons it rest ih =>
    intro acc f htxt htok hf
    have htxt' : ∀ t, Item.itxt t ∈ rest → ∀ c ∈ t, c ≠ '<' :=
      fun t ht => htxt t (List.mem_cons_of_mem _ ht)
    have htok' : ∀ k, Item.itok k ∈ rest → goodName k.name = true :=
      fun k hk => htok k (List.mem_cons_of_mem _ hk)
    cases it with
    | itxt t =>
      show scanAux f acc (t ++ renderItems rest) = scanItemsExp (t.reverse ++ acc) rest
      rw [scanAux_text t acc (renderItems rest) f
        (htxt t (List.mem_cons_self ..)) hf]
      exact ih (t.reverse ++ acc) (renderItems rest).length htxt' htok' (Nat.le_refl _)
    | itok k =>
      obtain ⟨cl, nm⟩ := k
      show scanAux f acc (renderTok (Tok.mk cl nm) ++ renderItems rest) =
        Seg.stext acc.reverse :: Seg.stag cl nm :: scanItemsExp [] rest
      rw [scanAux_tok cl nm (renderItems rest) acc f
        (htok (Tok.mk cl nm) (List.mem_cons_self ..)) hf]
      rw [ih [] (renderItems rest).length htxt' htok' (Nat.le_refl _)]

theorem toksOfSegs_scanItemsExp :
    ∀ (items : List Item) (acc : List Char),
      toksOfSegs (scanItemsExp acc items) = itemToks items := by
  intro items
  induction items with
  | nil => intro acc; rfl
  | cons it rest ih =>
    intro acc
    cases it with
    | itxt t => exact ih (t.reverse ++ acc)
    | itok k =>
      show toksOfSegs (Seg.stext acc.reverse :: Seg.stag k.cl k.name :: scanItemsExp [] rest) =
        k :: itemToks rest
      show Tok.mk k.cl k.name :: toksOfSegs (scanItemsExp [] rest) = _
      rw [ih []]

/-! ## Character class and lowercase lemmas -/

theorem zip_fst_mem_upper : ∀ p ∈ upperLetters.zip lowerLetters, p.1 ∈ upperLetters := by
  decide

theorem lowerChar_of_not_upper {c : Char} (h : c ∉ upperLetters) : lowerChar c = c := by
  unfold lowerChar
  rw [List.find?_eq_none.mpr]
  · rfl
  · intro p hp hpc
    exact h (of_decide_eq_true hpc ▸ zip_fst_mem_upper p hp)

theorem upper_lowerChar_facts :
    ∀ c ∈ upperLetters,
      isNameStart (lowerChar c) = true ∧ isNameChar (lowerChar c) = true ∧
      lowerChar c ∉ upperLetters ∧ lowerChar (lowerChar c) = lowerChar c := by
  decide

theorem lowerChar_idem (c : Char) : lowerChar (lowerChar c) = lowerChar c := by
  by_cases h : c ∈ upperLetters
  · exact (upper_lowerChar_facts c h).2.2.2
  · rw [lowerChar_of_not_upper h, lowerChar_of_not_upper h]

theorem lowerChar_nameStart {c : Char} (h : isNameStart c = true) :
    isNameStart (lowerChar c) = true := by
  by_cases hu : c ∈ upperLetters
  · exact (upper_lowerChar_facts c hu).1
  · rw [lowerChar_of_not_upper hu]; exact h

theorem lowerChar_nameChar {c : Char} (h : isNameChar c = true) :
    isNameChar (lowerChar c) = true := by
  by_cases hu : c ∈ upperLetters
  · exact (upper_lowerChar_facts c hu).2.1
  · rw [lowerChar_of_not_upper hu]; exact h

theorem goodName_lower {n : List Char} (h : goodName n = true) :
    goodName (n.map lowerChar) = true := by
  cases n with
  | nil => simp [goodName] at h
  | cons c l =>
    rw [goodName_cons, Bool.and_eq_true, List.all_eq_true] at h
    show goodName (lowerChar c :: l.map lowerChar) = true
    rw [goodName_cons, Bool.and_eq_true, List.all_eq_true]
    refine ⟨lowerChar_nameStart h.1, ?_⟩
    intro x hx
    obtain ⟨y, hy, rfl⟩ := List.mem_map.mp hx
    exact lowerChar_nameChar (h.2 y hy)

theorem map_lowerChar_idem (n : List Char) :
    (n.map lowerChar).map lowerChar = n.map lowerChar := by
  rw [List.map_map]
  exact List.map_congr_left fun c _ => lowerChar_idem c

/-! ## Normalization and escaping lemmas -/

theorem flat_append : ∀ a b : List (List Char), flat (a ++ b) = flat a ++ flat b := by
  intro a b
  induction a with
  | nil => rfl
  | cons l ls ih =>
    show l ++ flat (ls ++ b) = (l ++ flat ls) ++ flat b
    rw [ih, List.append_assoc]

theorem concatMap2_append (f : Char → List Char) (a b : List Char) :
    concatMap2 f (a ++ b) = concatMap2 f a ++ concatMap2 f b := by
  unfold concatMap2
  rw [List.map_append, flat_append]

theorem concatMap2_id {f : Char → List Char} :
    ∀ {cs : List Char}, (∀ c ∈ cs, f c = [c]) → concatMap2 f cs = cs := by
  intro cs
  induction cs with
  | nil => intro _; rfl
  | cons c cs ih =>
    intro h
    show f c ++ concatMap2 f cs = c :: cs
    rw [h c (List.mem_cons_self ..), ih fun x hx => h x (List.mem_cons_of_mem _ hx)]
    rfl

theorem concatMap2_mem {f : Char → List Char} :
    ∀ {cs : List Char} {x : Char}, x ∈ concatMap2 f cs → ∃ c ∈ cs, x ∈ f c := by
  intro cs
  induction cs with
  | nil => intro x hx; simp [concatMap2, flat] at hx
  | cons c cs ih =>
    intro x hx
    rcases List.mem_append.mp hx with hx | hx
    · exact ⟨c, List.mem_cons_self .., hx⟩
    · obtain ⟨c0, hc0, hxc⟩ := ih hx
      exact ⟨c0, List.mem_cons_of_mem _ hc0, hxc⟩

theorem normChar_id {c : Char} (h1 : c ≠ '<') (h2 : c ≠ '>') (h3 : c ≠ dquote)
    (h4 : c ≠ squote) : normChar c = [c] := by
  unfold normChar
  rw [if_neg h1, if_neg h2, if_neg h3, if_neg h4]

theorem ent_lt_safe :
    ∀ x ∈ ("&lt;").toList, x ≠ '<' ∧ x ≠ '>' ∧ x ≠ dquote ∧ x ≠ squote ∧ x ≠ '[' := by
  decide

theorem ent_gt_safe :
    ∀ x ∈ ("&gt;").toList, x ≠ '<' ∧ x ≠ '>' ∧ x ≠ dquote ∧ x ≠ squote ∧ x ≠ '[' := by
  decide

theorem ent_quot_safe :
    ∀ x ∈ ("&quot;").toList, x ≠ '<' ∧ x ≠ '>' ∧ x ≠ dquote ∧ x ≠ squote ∧ x ≠ '[' := by
  decide

theorem ent_apos_safe :
    ∀ x ∈ ("&#39;").toList, x ≠ '<' ∧ x ≠ '>' ∧ x ≠ dquote ∧ x ≠ squote ∧ x ≠ '[' := by
  decide

theorem ent_bracket_safe :
    ∀ x ∈ ("&#91;").toList, x ≠ '<' ∧ x ≠ '>' ∧ x ≠ dquote ∧ x ≠ squote ∧ x ≠ '[' := by
  decide

theorem normChar_mem_safe {c x : Char} (hx : x ∈ normChar c) :
    (x ≠ '<' ∧ x ≠ '>' ∧ x ≠ dquote ∧ x ≠ squote) ∧ (x = c ∨ x ≠ '[') := by
  unfold normChar at hx
  by_cases h1 : c = '<'
  · rw [if_pos h1] at hx
    have := ent_lt_safe x hx
    exact ⟨⟨this.1, this.2.1, this.2.2.1, this.2.2.2.1⟩, Or.inr this.2.2.2.2⟩
  · rw [if_neg h1] at hx
    by_cases h2 : c = '>'
    · rw [if_pos h2] at hx
      have := ent_gt_safe x hx
      exact ⟨⟨this.1, this.2.1, this.2.2.1, this.2.2.2.1⟩, Or.inr this.2.2.2.2⟩
    · rw [if_neg h2] at hx
      by_cases h3 : c = dquote
      · rw [if_pos h3] at hx
        have := ent_quot_safe x hx
        exact ⟨⟨this.1, this.2.1, this.2.2.1, this.2.2.2.1⟩, Or.inr this.2.2.2.2⟩
      · rw [if_neg h3] at hx
        by_cases h4 : c = squote
        · rw [if_pos h4] at hx
          have := ent_apos_safe x hx
          exact ⟨⟨this.1, this.2.1, this.2.2.1, this.2.2.2.1⟩, Or.inr this.2.2.2.2⟩
        · rw [if_neg h4] at hx
          obtain rfl := List.mem_singleton.mp hx
          exact ⟨⟨h1, h2, h3, h4⟩, Or.inl rfl⟩

theorem normalizeHtml_safe {t : List Char} (hb : ∀ c ∈ t, c ≠ '[') :
    ∀ x ∈ normalizeHtml t, safeChar x := by
  intro x hx
  obtain ⟨c, hc, hxc⟩ := concatMap2_mem hx
  obtain ⟨hs, hcb⟩ := normChar_mem_safe hxc
  refine ⟨hs.1, hs.2.1, hs.2.2.1, hs.2.2.2, ?_⟩
  rcases hcb with rfl | hne
  · exact hb _ hc
  · exact hne

theorem normalizeHtml_id {t : List Char} (h : ∀ c ∈ t, safeChar c) :
    normalizeHtml t = t := by
  apply concatMap2_id
  intro c hc
  obtain ⟨h1, h2, h3, h4, _⟩ := h c hc
  exact normChar_id h1 h2 h3 h4

theorem bracketEscape_no_bracket (cs : List Char) :
    ∀ x ∈ bracketEscape cs, x ≠ '[' := by
  intro x hx
  obtain ⟨c, _, hxc⟩ := concatMap2_mem hx
  unfold bracketEscChar at hxc
  by_cases h : c = '['
  · rw [if_pos h] at hxc
    exact (ent_bracket_safe x hxc).2.2.2.2
  · rw [if_neg h] at hxc
    obtain rfl := List.mem_singleton.mp hxc
    exact h

theorem bracketEscape_id {cs : List Char} (h : ∀ c ∈ cs, c ≠ '[') :
    bracketEscape cs = cs := by
  apply concatMap2_id
  intro c hc
  unfold bracketEscChar
  rw [if_neg (h c hc)]

theorem ltEscape_no_lt (cs : List Char) :
    ∀ x ∈ concatMap2 ltEscChar cs, x ≠ '<' := by
  intro x hx
  obtain ⟨c, _, hxc⟩ := concatMap2_mem hx
  unfold ltEscChar at hxc
  by_cases h : c = '<'
  · rw [if_pos h] at hxc
    exact (ent_lt_safe x hxc).1
  · rw [if_neg h] at hxc
    obtain rfl := List.mem_singleton.mp hxc
    exact h

theorem ltEscape_id {cs : List Char} (h : ∀ c ∈ cs, c ≠ '<') :
    concatMap2 ltEscChar cs = cs := by
  apply concatMap2_id
  intro c hc
  unfold ltEscChar
  rw [if_neg (h c hc)]

/-! ## Digit and marker lemmas -/

theorem digitChars_getD_facts :
    ∀ k, k < 10 →
      isAsciiDigit (digitChars.getD k '0') = true ∧
      (digitChars.getD k '0').toNat = 48 + k := by decide

theorem isAsciiDigit_ne :
    ∀ c, isAsciiDigit c = true →
      c ≠ ']' ∧ c ≠ '[' ∧ c ≠ '<' ∧ c ≠ '>' ∧ c ≠ dquote ∧ c ≠ squote := by
  have hall : ∀ c ∈ digitChars,
      c ≠ ']' ∧ c ≠ '[' ∧ c ≠ '<' ∧ c ≠ '>' ∧ c ≠ dquote ∧ c ≠ squote := by decide
  intro c h
  exact hall c (List.elem_iff.mp h)

theorem digitsAux_props :
    ∀ (f n : Nat), n < f →
      digitsAux f n ≠ [] ∧ ∀ c ∈ digitsAux f n, isAsciiDigit c = true := by
  intro f
  induction f with
  | zero => intro n h; exact absurd h (Nat.not_lt_zero n)
  | succ f ih =>
    intro n h
    unfold digitsAux
    by_cases h10 : n < 10
    · rw [if_pos h10]
      refine ⟨by simp, ?_⟩
      intro c hc
      obtain rfl := List.mem_singleton.mp hc
      exact (digitChars_getD_facts n h10).1
    · rw [if_neg h10]
      have hdiv : n / 10 < f := by omega
      obtain ⟨hne, hall⟩ := ih (n / 10) hdiv
      refine ⟨by simp [hne], ?_⟩
      intro c hc
      rcases List.mem_append.mp hc with hc | hc
      · exact hall c hc
      · obtain rfl := List.mem_singleton.mp hc
        exact (digitChars_getD_facts (n % 10) (Nat.mod_lt n (by omega))).1

theorem parseDigits_append (xs : List Char) (c : Char) :
    parseDigits (xs ++ [c]) = 10 * parseDigits xs + (c.toNat - 48) := by
  unfold parseDigits
  rw [List.foldl_append]
  rfl

theorem digits_roundtrip : ∀ (f n : Nat), n < f → parseDigits (digitsAux f n) = n := by
  intro f
  induction f with
  | zero => intro n h; exact absurd h (Nat.not_lt_zero n)
  | succ f ih =>
    intro n h
    unfold digitsAux
    by_cases h10 : n < 10
    · rw [if_pos h10]
      show parseDigits ([] ++ [digitChars.getD n '0']) = n
      rw [parseDigits_append, (digitChars_getD_facts n h10).2]
      show 10 * parseDigits [] + (48 + n - 48) = n
      unfold parseDigits
      simp
    · rw [if_neg h10]
      rw [parseDigits_append, ih (n / 10) (by omega),
        (digitChars_getD_facts (n % 10) (Nat.mod_lt n (by omega))).2]
      omega

theorem natDigits_props (n : Nat) :
    natDigits n ≠ [] ∧ (∀ c ∈ natDigits n, isAsciiDigit c = true) ∧
      parseDigits (natDigits n) = n :=
  ⟨(digitsAux_props (n + 1) n (Nat.lt_succ_self n)).1,
   (digitsAux_props (n + 1) n (Nat.lt_succ_self n)).2,
   digits_roundtrip (n + 1) n (Nat.lt_succ_self n)⟩

theorem substMarkers_nil (f : Nat) (tags : List (List Char)) :
    substMarkers f [] tags = [] := by cases f <;> rfl

theorem substMarkers_cons (f : Nat) (c : Char) (cs : List Char) (tags : List (List Char)) :
    substMarkers (f + 1) (c :: cs) tags =
      if c = '[' then
        (match dropW isAsciiDigit cs with
         | d :: rest =>
           if d = ']' && !(takeW isAsciiDigit cs).isEmpty then
             (tags.getD (parseDigits (takeW isAsciiDigit cs)) []) ++ substMarkers f rest tags
           else c :: substMarkers f cs tags
         | [] => c :: substMarkers f cs tags)
      else c :: substMarkers f cs tags := rfl

theorem substMarkers_fuel :
    ∀ (n : Nat) (cs : List Char), cs.length ≤ n →
      ∀ (tags : List (List Char)) (f g : Nat), cs.length ≤ f → cs.length ≤ g →
        substMarkers f cs tags = substMarkers g cs tags := by
  intro n
  induction n with
  | zero =>
    intro cs hcs tags f g _ _
    have hnil : cs = [] := List.length_eq_zero.mp (Nat.le_zero.mp hcs)
    subst hnil
    rw [substMarkers_nil, substMarkers_nil]
  | succ n ih =>
    intro cs hcs tags f g hf hg
    cases cs with
    | nil => rw [substMarkers_nil, substMarkers_nil]
    | cons c cs =>
      cases f with
      | zero => exact absurd hf (by simp)
      | succ f =>
        cases g with
        | zero => exact absurd hg (by simp)
        | succ g =>
          rw [substMarkers_cons, substMarkers_cons]
          have hcs' : cs.length ≤ n := Nat.le_of_succ_le_succ hcs
          have hf' : cs.length ≤ f := Nat.le_of_succ_le_succ hf
          have hg' : cs.length ≤ g := Nat.le_of_succ_le_succ hg
          by_cases hc : c = '['
          · rw [if_pos hc, if_pos hc]
            cases hd : dropW isAsciiDigit cs with
            | nil => simp only; rw [ih cs hcs' tags f g hf' hg']
            | cons d rest =>
              simp only
              have hlen : rest.length < cs.length := by
                have hle := dropW_length_le isAsciiDigit cs
                rw [hd] at hle
                simp only [List.length_cons] at hle
                omega
              by_cases hcond : (d = ']' && !(takeW isAsciiDigit cs).isEmpty) = true
              · rw [if_pos hcond, if_pos hcond,
                  ih rest (by omega) tags f g (by omega) (by omega)]
              · rw [if_neg hcond, if_neg hcond, ih cs hcs' tags f g hf' hg']
          · rw [if_neg hc, if_neg hc, ih cs hcs' tags f g hf' hg']

theorem substMarkers_text :
    ∀ (t cs : List Char) (tags : List (List Char)) (f : Nat),
      (∀ c ∈ t, c ≠ '[') → (t ++ cs).length ≤ f →
      substMarkers f (t ++ cs) tags = t ++ substMarkers cs.length cs tags := by
  intro t
  induction t with
  | nil =>
    intro cs tags f _ hf
    simp only [List.nil_append]
    exact substMarkers_fuel cs.length cs (Nat.le_refl _) tags f cs.length
      (by simpa using hf) (Nat.le_refl _)
  | cons a t ih =>
    intro cs tags f ha hf
    cases f with
    | zero => exact absurd hf (by simp)
    | succ f =>
      rw [List.cons_append, substMarkers_cons, if_neg (ha a (List.mem_cons_self ..))]
      rw [ih cs tags f (fun c hc => ha c (List.mem_cons_of_mem _ hc))
        (by simpa using Nat.le_of_succ_le_succ hf)]
      rfl

theorem substMarkers_marker :
    ∀ (i : Nat) (rest : List Char) (tags : List (List Char)) (f : Nat),
      ('[' :: (natDigits i ++ ']' :: rest)).length ≤ f →
      substMarkers f ('[' :: (natDigits i ++ ']' :: rest)) tags =
        tags.getD i [] ++ substMarkers rest.length rest tags := by
  intro i rest tags f hf
  cases f with
  | zero => exact absurd hf (by simp)
  | succ f =>
    rw [substMarkers_cons, if_pos rfl]
    obtain ⟨hne, hdig, hparse⟩ := natDigits_props i
    obtain ⟨ht, hd⟩ := takeW_append_stop isAsciiDigit (natDigits i) ']' rest hdig (by decide)
    rw [ht, hd]
    simp only
    have hEm : (natDigits i).isEmpty = false := List.isEmpty_eq_false.mpr hne
    rw [hEm]
    rw [if_pos (by decide)]
    rw [hparse]
    rw [substMarkers_fuel rest.length rest (Nat.le_refl _) tags f rest.length ?hfl (Nat.le_refl _)]
    case hfl =>
      simp only [List.length_cons, List.length_append] at hf
      omega

theorem substMarkers_pieces (outs : List (List Tok)) :
    ∀ (pieces : List Piece) (f : Nat),
      (∀ t, Piece.ptxt t ∈ pieces → ∀ c ∈ t, c ≠ '[') →
      (renderPieces pieces).length ≤ f →
      substMarkers f (renderPieces pieces) (outs.map renderToks) =
        renderItems (itemsOfPieces outs pieces) := by
  intro pieces
  induction pieces with
  | nil =>
    intro f _ _
    rw [show renderPieces [] = [] from rfl, substMarkers_nil]
    rfl
  | cons p rest ih =>
    intro f htxt hf
    have htxt' : ∀ t, Piece.ptxt t ∈ rest → ∀ c ∈ t, c ≠ '[' :=
      fun t ht => htxt t (List.mem_cons_of_mem _ ht)
    cases p with
    | ptxt t =>
      show substMarkers f (t ++ renderPieces rest) _ =
        t ++ renderItems (itemsOfPieces outs rest)
      rw [substMarkers_text t (renderPieces rest) _ f (htxt t (List.mem_cons_self ..)) hf]
      rw [ih (renderPieces rest).length htxt' (Nat.le_refl _)]
    | pmark i =>
      have hshape : renderPieces (Piece.pmark i :: rest) =
          '[' :: (natDigits i ++ ']' :: renderPieces rest) := by
        show '[' :: (natDigits i ++ [']']) ++ renderPieces rest = _
        rw [List.cons_append, List.append_assoc]
        rfl
      rw [hshape] at hf ⊢
      rw [substMarkers_marker i (renderPieces rest) _ f hf]
      have hgetD : (outs.map renderToks).getD i [] = renderToks (outs.getD i []) := by
        rw [List.getD_eq_getElem?_getD, List.getD_eq_getElem?_getD, List.getElem?_map]
        cases outs[i]? <;> rfl
      rw [hgetD, ih (renderPieces rest).length htxt' (Nat.le_refl _)]
      show _ = renderItems ((outs.getD i []).map Item.itok ++ itemsOfPieces outs rest)
      rw [renderItems_append, renderItems_map_itok]

/-! ## Marker-building lemmas -/

theorem buildMarked_nil (wl : List (List Char)) (tags0 : List Tok) :
    buildMarked wl [] tags0 = ([], tags0) := rfl

theorem buildMarked_text (wl : List (List Char)) (t : List Char) (rest : List Seg)
    (tags0 : List Tok) :
    buildMarked wl (Seg.stext t :: rest) tags0 =
      (Piece.ptxt t :: (buildMarked wl rest tags0).1, (buildMarked wl rest tags0).2) := rfl

theorem buildMarked_bang (wl : List (List Char)) (rest : List Seg) (tags0 : List Tok) :
    buildMarked wl (Seg.sbang :: rest) tags0 = buildMarked wl rest tags0 := rfl

theorem buildMarked_tag_in {wl : List (List Char)} {n : List Char}
    (h : n.map lowerChar ∈ wl) (cl : Bool) (rest : List Seg) (tags0 : List Tok) :
    buildMarked wl (Seg.stag cl n :: rest) tags0 =
      (Piece.pmark tags0.length ::
          (buildMarked wl rest (tags0 ++ [Tok.mk cl (n.map lowerChar)])).1,
        (buildMarked wl rest (tags0 ++ [Tok.mk cl (n.map lowerChar)])).2) := by
  simp [buildMarked, h]

theorem buildMarked_tag_out {wl : List (List Char)} {n : List Char}
    (h : ¬ n.map lowerChar ∈ wl) (cl : Bool) (rest : List Seg) (tags0 : List Tok) :
    buildMarked wl (Seg.stag cl n :: rest) tags0 = buildMarked wl rest tags0 := by
  simp [buildMarked, h]

/-- The whitelist substitution over a rendered item scan yields the
expected pieces and records exactly the item tokens. -/
theorem buildMarked_scanItemsExp (wl : List (List Char)) :
    ∀ (items : List Item) (acc : List Char) (tags0 : List Tok),
      (∀ k, Item.itok k ∈ items → k.name.map lowerChar = k.name ∧ k.name ∈ wl) →
      buildMarked wl (scanItemsExp acc items) tags0 =
        (piecesExp acc tags0.length items, tags0 ++ itemToks items) := by
  intro items
  induction items with
  | nil =>
    intro acc tags0 _
    show buildMarked wl [Seg.stext acc.reverse] tags0 = _
    rw [buildMarked_text, buildMarked_nil]
    show ([Piece.ptxt acc.reverse], tags0) = ([Piece.ptxt acc.reverse], tags0 ++ [])
    rw [List.append_nil]
  | cons it rest ih =>
    intro acc tags0 hk
    have hk' : ∀ k, Item.itok k ∈ rest → k.name.map lowerChar = k.name ∧ k.name ∈ wl :=
      fun k h => hk k (List.mem_cons_of_mem _ h)
    cases it with
    | itxt t => exact ih (t.reverse ++ acc) tags0 hk'
    | itok k =>
      obtain ⟨hl, hw⟩ := hk k (List.mem_cons_self ..)
      show buildMarked wl
        (Seg.stext acc.reverse :: Seg.stag k.cl k.name :: scanItemsExp [] rest) tags0 = _
      rw [buildMarked_text, buildMarked_tag_in (by rw [hl]; exact hw),
        ih [] (tags0 ++ [Tok.mk k.cl (k.name.map lowerChar)]) hk']
      rw [hl]
      show (Piece.ptxt acc.reverse :: Piece.pmark tags0.length ::
          piecesExp [] (tags0 ++ [Tok.mk k.cl k.name]).length rest,
        (tags0 ++ [Tok.mk k.cl k.name]) ++ itemToks rest) = _
      have heta : Tok.mk k.cl k.name = k := rfl
      rw [heta]
      show _ = (Piece.ptxt acc.reverse :: Piece.pmark tags0.length ::
          piecesExp [] (tags0.length + 1) rest, tags0 ++ (k :: itemToks rest))
      rw [List.length_append, List.append_assoc]
      rfl

/-- The marker pieces and recorded tokens of the whitelist substitution:
the recorded tokens extend the accumulator, the marker indices are
consecutive starting at the accumulator length, the text pieces come from
the scan, and every recorded token is a lowercased whitelisted tag of the
scan. -/
theorem buildMarked_spec (wl : List (List Char)) :
    ∀ (segs : List Seg) (tags0 : List Tok),
      ∃ Δ : List Tok,
        (buildMarked wl segs tags0).2 = tags0 ++ Δ ∧
        marksOf (buildMarked wl segs tags0).1 = List.range' tags0.length Δ.length ∧
        (∀ t, Piece.ptxt t ∈ (buildMarked wl segs tags0).1 → Seg.stext t ∈ segs) ∧
        (∀ k ∈ Δ, (∃ cl n, Seg.stag cl n ∈ segs ∧ k = Tok.mk cl (n.map lowerChar)) ∧
          k.name ∈ wl) := by
  intro segs
  induction segs with
  | nil =>
    intro tags0
    exact ⟨[], by simp [buildMarked_nil], by simp [buildMarked_nil, marksOf],
      by simp [buildMarked_nil], by simp⟩
  | cons sg rest ih =>
    intro tags0
    cases sg with
    | stext t =>
      obtain ⟨Δ, h1, h2, h3, h4⟩ := ih tags0
      refine ⟨Δ, ?_, ?_, ?_, ?_⟩
      · rw [buildMarked_text]; exact h1
      · rw [buildMarked_text]; exact h2
      · rw [buildMarked_text]
        intro u hu
        rcases List.mem_cons.mp hu with heq | hu
        · obtain ⟨rfl⟩ := (Piece.ptxt.injEq ..).mp heq
          exact List.mem_cons_self ..
        · exact List.mem_cons_of_mem _ (h3 u hu)
      · intro k hk
        obtain ⟨⟨cl, n, hmem, hk2⟩, hw⟩ := h4 k hk
        exact ⟨⟨cl, n, List.mem_cons_of_mem _ hmem, hk2⟩, hw⟩
    | sbang =>
      obtain ⟨Δ, h1, h2, h3, h4⟩ := ih tags0
      refine ⟨Δ, by rw [buildMarked_bang]; exact h1, by rw [buildMarked_bang]; exact h2,
        ?_, ?_⟩
      · rw [buildMarked_bang]
        exact fun u hu => List.mem_cons_of_mem _ (h3 u hu)
      · intro k hk
        obtain ⟨⟨cl, n, hmem, hk2⟩, hw⟩ := h4 k hk
        exact ⟨⟨cl, n, List.mem_cons_of_mem _ hmem, hk2⟩, hw⟩
    | stag cl n =>
      by_cases hin : n.map lowerChar ∈ wl
      · obtain ⟨Δ, h1, h2, h3, h4⟩ := ih (tags0 ++ [Tok.mk cl (n.map lowerChar)])
        refine ⟨Tok.mk cl (n.map lowerChar) :: Δ, ?_, ?_, ?_, ?_⟩
        · rw [buildMarked_tag_in hin, h1, List.append_assoc]
          rfl
        · rw [buildMarked_tag_in hin]
          show tags0.length :: marksOf (buildMarked wl rest
            (tags0 ++ [Tok.mk cl (n.map lowerChar)])).1 = _
          rw [h2, List.length_append]
          show tags0.length :: List.range' (tags0.length + 1) Δ.length = _
          rw [List.length_cons, List.range'_succ]
        · rw [buildMarked_tag_in hin]
          intro u hu
          rcases List.mem_cons.mp hu with heq | hu
          · exact absurd heq (by simp)
          · exact List.mem_cons_of_mem _ (h3 u hu)
        · intro k hk
          rcases List.mem_cons.mp hk with heq | hk
          · subst heq
            exact ⟨⟨cl, n, List.mem_cons_self .., rfl⟩, hin⟩
          · obtain ⟨⟨cl0, n0, hmem, hk2⟩, hw⟩ := h4 k hk
            exact ⟨⟨cl0, n0, List.mem_cons_of_mem _ hmem, hk2⟩, hw⟩
      · obtain ⟨Δ, h1, h2, h3, h4⟩ := ih tags0
        refine ⟨Δ, by rw [buildMarked_tag_out hin]; exact h1,
          by rw [buildMarked_tag_out hin]; exact h2, ?_, ?_⟩
        · rw [buildMarked_tag_out hin]
          exact fun u hu => List.mem_cons_of_mem _ (h3 u hu)
        · intro k hk
          obtain ⟨⟨cl0, n0, hmem, hk2⟩, hw⟩ := h4 k hk
          exact ⟨⟨cl0, n0, List.mem_cons_of_mem _ hmem, hk2⟩, hw⟩

theorem piecesExp_marks :
    ∀ (items : List Item) (acc : List Char) (k : Nat),
      marksOf (piecesExp acc k items) = List.range' k (itemToks items).length := by
  intro items
  induction items with
  | nil => intro acc k; rfl
  | cons it rest ih =>
    intro acc k
    cases it with
    | itxt t => exact ih (t.reverse ++ acc) k
    | itok tk =>
      show marksOf (Piece.ptxt acc.reverse :: Piece.pmark k :: piecesExp [] (k + 1) rest) = _
      show k :: marksOf (piecesExp [] (k + 1) rest) = _
      rw [ih [] (k + 1)]
      show _ = List.range' k ((itemToks rest).length + 1)
      rw [List.range'_succ]

theorem piecesExp_texts (q : Char → Prop) :
    ∀ (items : List Item) (acc : List Char) (k : Nat),
      (∀ c ∈ acc, q c) →
      (∀ t, Item.itxt t ∈ items → ∀ c ∈ t, q c) →
      ∀ t, Piece.ptxt t ∈ piecesExp acc k items → ∀ c ∈ t, q c := by
  intro items
  induction items with
  | nil =>
    intro acc k hacc _ t ht c hc
    obtain ⟨rfl⟩ := (Piece.ptxt.injEq ..).mp (List.mem_singleton.mp ht)
    exact hacc c (List.mem_reverse.mp hc)
  | cons it rest ih =>
    intro acc k hacc hitems
    have hitems' : ∀ t, Item.itxt t ∈ rest → ∀ c ∈ t, q c :=
      fun t ht => hitems t (List.mem_cons_of_mem _ ht)
    cases it with
    | itxt t0 =>
      refine ih (t0.reverse ++ acc) k ?_ hitems'
      intro c hc
      rcases List.mem_append.mp hc with hc | hc
      · exact hitems t0 (List.mem_cons_self ..) c (List.mem_reverse.mp hc)
      · exact hacc c hc
    | itok tk =>
      intro t ht c hc
      rcases List.mem_cons.mp ht with heq | ht
      · obtain ⟨rfl⟩ := (Piece.ptxt.injEq ..).mp heq
        exact hacc c (List.mem_reverse.mp hc)
      · rcases List.mem_cons.mp ht with heq | ht
        · exact absurd heq (by simp)
        · exact ih [] (k + 1) (by simp) hitems' t ht c hc

/-! ## Normalization over pieces -/

theorem normChar_marker_id :
    ∀ c, isAsciiDigit c = true ∨ c = '[' ∨ c = ']' → normChar c = [c] := by
  intro c hc
  rcases hc with hd | rfl | rfl
  · obtain ⟨h1, h2, h3, h4, h5, h6⟩ := isAsciiDigit_ne c hd
    exact normChar_id h3 h4 h5 h6
  · decide
  · decide

theorem normalizeHtml_renderPieces :
    ∀ pieces : List Piece,
      normalizeHtml (renderPieces pieces) = renderPieces (normPieces pieces) := by
  intro pieces
  induction pieces with
  | nil => rfl
  | cons p rest ih =>
    cases p with
    | ptxt t =>
      show normalizeHtml (t ++ renderPieces rest) =
        normalizeHtml t ++ renderPieces (normPieces rest)
      rw [show normalizeHtml (t ++ renderPieces rest) =
        normalizeHtml t ++ normalizeHtml (renderPieces rest) from
          concatMap2_append normChar t (renderPieces rest), ih]
    | pmark i =>
      show normalizeHtml (('[' :: (natDigits i ++ [']'])) ++ renderPieces rest) =
        ('[' :: (natDigits i ++ [']'])) ++ renderPieces (normPieces rest)
      rw [show normalizeHtml (('[' :: (natDigits i ++ [']'])) ++ renderPieces rest) =
        normalizeHtml ('[' :: (natDigits i ++ [']'])) ++ normalizeHtml (renderPieces rest) from
          concatMap2_append normChar _ _, ih]
      congr 1
      apply concatMap2_id
      intro c hc
      rcases List.mem_cons.mp hc with rfl | hc
      · exact normChar_marker_id _ (Or.inr (Or.inl rfl))
      · rcases List.mem_append.mp hc with hc | hc
        · exact normChar_marker_id _ (Or.inl ((natDigits_props i).2.1 c hc))
        · obtain rfl := List.mem_singleton.mp hc
          exact normChar_marker_id _ (Or.inr (Or.inr rfl))

theorem normPieces_marks : ∀ pieces : List Piece, marksOf (normPieces pieces) = marksOf pieces := by
  intro pieces
  induction pieces with
  | nil => rfl
  | cons p rest ih =>
    cases p with
    | ptxt t => exact ih
    | pmark i => show i :: marksOf (normPieces rest) = i :: marksOf rest; rw [ih]

theorem normPieces_texts :
    ∀ (pieces : List Piece) (t : List Char), Piece.ptxt t ∈ normPieces pieces →
      ∃ t0, Piece.ptxt t0 ∈ pieces ∧ t = normalizeHtml t0 := by
  intro pieces
  induction pieces with
  | nil => intro t ht; simp [normPieces] at ht
  | cons p rest ih =>
    intro t ht
    cases p with
    | ptxt t0 =>
      rcases List.mem_cons.mp ht with heq | ht
      · exact ⟨t0, List.mem_cons_self .., (Piece.ptxt.injEq ..).mp heq⟩
      · obtain ⟨t1, hm, he⟩ := ih t ht
        exact ⟨t1, List.mem_cons_of_mem _ hm, he⟩
    | pmark i =>
      rcases List.mem_cons.mp ht with heq | ht
      · exact absurd heq (by simp)
      · obtain ⟨t1, hm, he⟩ := ih t ht
        exact ⟨t1, List.mem_cons_of_mem _ hm, he⟩

/-! ## Reassembly lemmas -/

theorem flatT_mem {l : List Tok} {outs : List (List Tok)} (hl : l ∈ outs) :
    ∀ t ∈ l, t ∈ flatT outs := by
  induction outs with
  | nil => simp at hl
  | cons o os ih =>
    intro t ht
    rcases List.mem_cons.mp hl with rfl | hl
    · exact List.mem_append.mpr (Or.inl ht)
    · exact List.mem_append.mpr (Or.inr (ih hl t ht))

theorem itemsOfPieces_texts :
    ∀ (outs : List (List Tok)) (pieces : List Piece) (t : List Char),
      Item.itxt t ∈ itemsOfPieces outs pieces → Piece.ptxt t ∈ pieces := by
  intro outs pieces
  induction pieces with
  | nil => intro t ht; simp [itemsOfPieces] at ht
  | cons p rest ih =>
    intro t ht
    cases p with
    | ptxt t0 =>
      rcases List.mem_cons.mp ht with heq | ht
      · obtain ⟨rfl⟩ := (Item.itxt.injEq ..).mp heq
        exact List.mem_cons_self ..
      · exact List.mem_cons_of_mem _ (ih t ht)
    | pmark i =>
      rcases List.mem_append.mp ht with hm | ht
      · obtain ⟨k, _, hk⟩ := List.mem_map.mp hm
        exact absurd hk (by simp)
      · exact List.mem_cons_of_mem _ (ih t ht)

theorem itemsOfPieces_toks :
    ∀ (outs : List (List Tok)) (pieces : List Piece) (k : Tok),
      Item.itok k ∈ itemsOfPieces outs pieces →
      ∃ i ∈ marksOf pieces, k ∈ outs.getD i [] := by
  intro outs pieces
  induction pieces with
  | nil => intro k hk; simp [itemsOfPieces] at hk
  | cons p rest ih =>
    intro k hk
    cases p with
    | ptxt t0 =>
      rcases List.mem_cons.mp hk with heq | hk
      · exact absurd heq (by simp)
      · obtain ⟨i, hi, hm⟩ := ih k hk
        exact ⟨i, hi, hm⟩
    | pmark i0 =>
      rcases List.mem_append.mp hk with hm | hk
      · obtain ⟨k0, hk0, hkk⟩ := List.mem_map.mp hm
        obtain ⟨rfl⟩ := (Item.itok.injEq ..).mp hkk.symm
        exact ⟨i0, List.mem_cons_self .., hk0⟩
      · obtain ⟨i, hi, hm⟩ := ih k hk
        exact ⟨i, List.mem_cons_of_mem _ hi, hm⟩

theorem itemToks_itemsOfPieces :
    ∀ (pieces : List Piece) (outs : List (List Tok)) (s : Nat),
      s ≤ outs.length →
      marksOf pieces = List.range' s (outs.length - s) →
      itemToks (itemsOfPieces outs pieces) = flatT (outs.drop s) := by
  intro pieces
  induction pieces with
  | nil =>
    intro outs s hs hmk
    have h0 : outs.length - s = 0 := by
      by_contra hne
      obtain ⟨m, hm⟩ := Nat.exists_eq_succ_of_ne_zero hne
      rw [hm, List.range'_succ] at hmk
      exact List.noConfusion hmk
    rw [List.drop_eq_nil_of_le (by omega)]
    rfl
  | cons p rest ih =>
    intro outs s hs hmk
    cases p with
    | ptxt t => exact ih outs s hs hmk
    | pmark i =>
      show itemToks ((outs.getD i []).map Item.itok ++ itemsOfPieces outs rest) = _
      rw [itemToks_append, itemToks_map_itok]
      have hmk' : i :: marksOf rest = List.range' s (outs.length - s) := hmk
      cases hlen : outs.length - s with
      | zero => rw [hlen, List.range'] at hmk'; exact absurd hmk' (by simp)
      | succ m =>
        rw [hlen, List.range'_succ] at hmk'
        have heq : i = s := ((List.cons.injEq ..).mp hmk').1
        have hrest : marksOf rest = List.range' (s + 1) m := ((List.cons.injEq ..).mp hmk').2
        have hslt : s < outs.length := by omega
        have hm' : m = outs.length - (s + 1) := by omega
        rw [heq, ih outs (s + 1) (by omega) (by rw [hrest, hm'])]
        rw [List.drop_eq_getElem_cons hslt]
        show outs.getD s [] ++ flatT (outs.drop (s + 1)) =
          outs[s] ++ flatT (outs.drop (s + 1))
        rw [List.getD_eq_getElem?_getD, List.getElem?_eq_getElem hslt]
        rfl

theorem renderItems_reconstruct :
    ∀ (items : List Item) (acc : List Char) (k : Nat) (outs : List (List Tok)),
      (∀ j, j < (itemToks items).length →
        outs.getD (k + j) [] = [(itemToks items).getD j (Tok.mk false [])]) →
      renderItems (itemsOfPieces outs (piecesExp acc k items)) =
        acc.reverse ++ renderItems items := by
  intro items
  induction items with
  | nil =>
    intro acc k outs _
    show renderItems [Item.itxt acc.reverse] = acc.reverse ++ []
    show acc.reverse ++ renderItems [] = _
    rfl
  | cons it rest ih =>
    intro acc k outs hout
    cases it with
    | itxt t =>
      show renderItems (itemsOfPieces outs (piecesExp (t.reverse ++ acc) k rest)) =
        acc.reverse ++ (t ++ renderItems rest)
      rw [ih (t.reverse ++ acc) k outs hout]
      rw [List.reverse_append, List.reverse_reverse, List.append_assoc]
    | itok tk =>
      show renderItems (Item.itxt acc.reverse ::
        ((outs.getD k []).map Item.itok ++
          itemsOfPieces outs (piecesExp [] (k + 1) rest))) =
        acc.reverse ++ (renderTok tk ++ renderItems rest)
      have h0 : outs.getD k [] = [tk] := by
        have h := hout 0 (by show 0 < (tk :: itemToks rest).length; simp)
        rw [Nat.add_zero] at h
        exact h
      have hout' : ∀ j, j < (itemToks rest).length →
          outs.getD (k + 1 + j) [] = [(itemToks rest).getD j (Tok.mk false [])] := by
        intro j hj
        have h := hout (j + 1)
          (by show j + 1 < (tk :: itemToks rest).length; simp only [List.length_cons]; omega)
        rw [show k + (j + 1) = k + 1 + j by omega] at h
        exact h
      show acc.reverse ++ renderItems ((outs.getD k []).map Item.itok ++
        itemsOfPieces outs (piecesExp [] (k + 1) rest)) = _
      rw [renderItems_append, renderItems_map_itok, h0,
        ih [] (k + 1) outs hout']
      simp [renderToks, flat]

theorem lower_not_special : ∀ c ∈ lowerLetters, c ≠ '[' ∧ c ≠ '<' ∧ c ≠ '>' := by decide

theorem upper_not_special : ∀ c ∈ upperLetters, c ≠ '[' ∧ c ≠ '<' ∧ c ≠ '>' := by decide

theorem isNameChar_ne {c : Char} (h : isNameChar c = true) :
    c ≠ '[' ∧ c ≠ '<' ∧ c ≠ '>' := by
  unfold isNameChar isNameStart at h
  simp only [Bool.or_eq_true, decide_eq_true_eq] at h
  rcases h with ((((h | h) | h) | h) | h) | h
  · exact lower_not_special c (List.elem_iff.mp h)
  · exact upper_not_special c (List.elem_iff.mp h)
  · obtain ⟨_, h2, h3, h4, _⟩ := isAsciiDigit_ne c h
    exact ⟨h2, h3, h4⟩
  · subst h; exact ⟨by decide, by decide, by decide⟩
  · subst h; exact ⟨by decide, by decide, by decide⟩
  · subst h; exact ⟨by decide, by decide, by decide⟩

theorem goodName_all {nm : List Char} (h : goodName nm = true) :
    ∀ x ∈ nm, isNameChar x = true := by
  cases nm with
  | nil => simp [goodName] at h
  | cons c l =>
    rw [goodName_cons, Bool.and_eq_true, List.all_eq_true] at h
    intro x hx
    rcases List.mem_cons.mp hx with rfl | hx
    · unfold isNameChar
      rw [h.1]
      rfl
    · exact h.2 x hx

theorem renderTok_mem {k : Tok} {x : Char} (hx : x ∈ renderTok k) :
    x = '<' ∨ x = '/' ∨ x = '>' ∨ x ∈ k.name := by
  obtain ⟨cl, nm⟩ := k
  rw [renderTok_eq] at hx
  cases cl with
  | false =>
    rw [if_neg (by decide : ¬(false = true))] at hx
    rcases List.mem_cons.mp hx with rfl | hx
    · exact Or.inl rfl
    · rcases List.mem_append.mp hx with hx | hx
      · exact Or.inr (Or.inr (Or.inr hx))
      · obtain rfl := List.mem_singleton.mp hx
        exact Or.inr (Or.inr (Or.inl rfl))
  | true =>
    rw [if_pos rfl] at hx
    rcases List.mem_cons.mp hx with rfl | hx
    · exact Or.inl rfl
    · rcases List.mem_cons.mp hx with rfl | hx
      · exact Or.inr (Or.inl rfl)
      · rcases List.mem_append.mp hx with hx | hx
        · exact Or.inr (Or.inr (Or.inr hx))
        · obtain rfl := List.mem_singleton.mp hx
          exact Or.inr (Or.inr (Or.inl rfl))

theorem renderItems_mem :
    ∀ {items : List Item} {x : Char}, x ∈ renderItems items →
      (∃ t, Item.itxt t ∈ items ∧ x ∈ t) ∨ (∃ k, Item.itok k ∈ items ∧ x ∈ renderTok k) := by
  intro items
  induction items with
  | nil => intro x hx; simp [renderItems] at hx
  | cons it rest ih =>
    intro x hx
    cases it with
    | itxt t =>
      rcases List.mem_append.mp hx with hx | hx
      · exact Or.inl ⟨t, List.mem_cons_self .., hx⟩
      · rcases ih hx with ⟨t0, hm, hx0⟩ | ⟨k0, hm, hx0⟩
        · exact Or.inl ⟨t0, List.mem_cons_of_mem _ hm, hx0⟩
        · exact Or.inr ⟨k0, List.mem_cons_of_mem _ hm, hx0⟩
    | itok k =>
      rcases List.mem_append.mp hx with hx | hx
      · exact Or.inr ⟨k, List.mem_cons_self .., hx⟩
      · rcases ih hx with ⟨t0, hm, hx0⟩ | ⟨k0, hm, hx0⟩
        · exact Or.inl ⟨t0, List.mem_cons_of_mem _ hm, hx0⟩
        · exact Or.inr ⟨k0, List.mem_cons_of_mem _ hm, hx0⟩

theorem normPieces_id :
    ∀ {pieces : List Piece},
      (∀ t, Piece.ptxt t ∈ pieces → ∀ c ∈ t, safeChar c) → normPieces pieces = pieces := by
  intro pieces
  induction pieces with
  | nil => intro _; rfl
  | cons p rest ih =>
    intro h
    cases p with
    | ptxt t =>
      show Piece.ptxt (normalizeHtml t) :: normPieces rest = _
      rw [normalizeHtml_id (h t (List.mem_cons_self ..)),
        ih fun t0 ht0 => h t0 (List.mem_cons_of_mem _ ht0)]
    | pmark i =>
      show Piece.pmark i :: normPieces rest = _
      rw [ih fun t0 ht0 => h t0 (List.mem_cons_of_mem _ ht0)]

/-- The whitelist filter is the identity on a rendered item sequence
satisfying the output invariants (safe text, well-formed lowercase
whitelisted tag names, well-nested tokens). -/
theorem strip_renderItems_id (wl : List (List Char)) (items : List Item)
    (hwl : wl ≠ []) (hgood : goodItems wl items) :
    stripHtmlTags (renderItems items) wl = renderItems items := by
  obtain ⟨htxt, htok, hchk⟩ := hgood
  have hnb : ∀ x ∈ renderItems items, x ≠ '[' := by
    intro x hx
    rcases renderItems_mem hx with ⟨t, hm, hxt⟩ | ⟨k, hm, hxk⟩
    · exact (htxt t hm x hxt).2.2.2.2
    · rcases renderTok_mem hxk with rfl | rfl | rfl | hxn
      · decide
      · decide
      · decide
      · exact (isNameChar_ne (goodName_all (htok k hm).1 x hxn)).1
  have hnlt : ∀ t, Item.itxt t ∈ items → ∀ c ∈ t, c ≠ '<' :=
    fun t hm c hc => (htxt t hm c hc).1
  have hgoodn : ∀ k, Item.itok k ∈ items → goodName k.name = true :=
    fun k hm => (htok k hm).1
  have hA : bracketEscape (renderItems items) = renderItems items :=
    bracketEscape_id hnb
  have hB : scanTags (renderItems items) = scanItemsExp [] items := by
    unfold scanTags
    exact scanAux_renderItems items [] ((renderItems items).length + 1) hnlt hgoodn
      (Nat.le_succ _)
  have hC : buildMarked wl (scanItemsExp [] items) [] =
      (piecesExp [] 0 items, itemToks items) := by
    have := buildMarked_scanItemsExp wl items [] []
      (fun k hm => ⟨(htok k hm).2.1, (htok k hm).2.2⟩)
    simpa using this
  have hD : balanceAux (itemToks items) [] = ((itemToks items).map fun t => [t], []) :=
    balanceAux_of_chkBal (itemToks items) [] hchk
  have htsafe : ∀ t, Piece.ptxt t ∈ piecesExp [] 0 items → ∀ c ∈ t, safeChar c :=
    piecesExp_texts safeChar items [] 0 (by simp) htxt
  have hE : normalizeHtml (renderPieces (piecesExp [] 0 items)) =
      renderPieces (piecesExp [] 0 items) := by
    rw [normalizeHtml_renderPieces, normPieces_id htsafe]
  have htnb : ∀ t, Piece.ptxt t ∈ piecesExp [] 0 items → ∀ c ∈ t, c ≠ '[' :=
    fun t ht c hc => (htsafe t ht c hc).2.2.2.2
  have hF : substMarkers ((renderPieces (piecesExp [] 0 items)).length + 1)
      (renderPieces (piecesExp [] 0 items))
      (((itemToks items).map fun t => [t]).map renderToks) =
      renderItems (itemsOfPieces ((itemToks items).map fun t => [t])
        (piecesExp [] 0 items)) :=
    substMarkers_pieces _ _ _ htnb (Nat.le_succ _)
  have hG : renderItems (itemsOfPieces ((itemToks items).map fun t => [t])
      (piecesExp [] 0 items)) = renderItems items := by
    have := renderItems_reconstruct items [] 0 ((itemToks items).map fun t => [t]) ?hyp
    · simpa using this
    case hyp =>
      intro j hj
      rw [Nat.zero_add, List.getD_eq_getElem?_getD, List.getElem?_map,
        List.getElem?_eq_getElem hj, List.getD_eq_getElem?_getD,
        List.getElem?_eq_getElem hj]
      rfl
  show (if wl.isEmpty then _ else _) = renderItems items
  rw [List.isEmpty_eq_false.mpr hwl]
  show (let html1 := bracketEscape (renderItems items)
    let segs := scanTags html1
    let bm := buildMarked wl segs []
    let html2 := renderPieces bm.1
    let html3 := normalizeHtml html2
    let bal := balanceTags bm.2
    let tagstrs := bal.1.map renderToks
    let html4 := substMarkers (html3.length + 1) html3 tagstrs
    html4 ++ renderToks bal.2) = renderItems items
  simp only [hA, hB, hC, balanceTags, hD, hE, hF, hG, closersFor]
  show renderItems items ++ renderToks [] = renderItems items
  rw [show renderToks [] = [] from rfl, List.append_nil]

/-- The whitelist filter output decomposes into text runs and tag tokens
satisfying the output invariants. -/
theorem strip_characterization (cs : List Char) (wl : List (List Char)) (hwl : wl ≠ []) :
    ∃ items : List Item,
      stripHtmlTags cs wl = renderItems items ∧ goodItems wl items := by
  have hnb1 : ∀ c ∈ bracketEscape cs, c ≠ '[' := bracketEscape_no_bracket cs
  obtain ⟨hsegT, hsegN⟩ := scanAux_props (fun c => c ≠ '[') ((bracketEscape cs).length + 1)
    [] (bracketEscape cs) (by simp) hnb1
  obtain ⟨Δ, hΔ2, hΔmk, hΔtx, hΔtok⟩ :=
    buildMarked_spec wl (scanTags (bracketEscape cs)) []
  rw [List.nil_append] at hΔ2
  simp only [List.length_nil] at hΔmk
  set segs := scanTags (bracketEscape cs) with hsegs
  set bm := buildMarked wl segs [] with hbm
  -- token facts for Δ
  have hΔP : ∀ k ∈ Δ, goodName k.name = true ∧ k.name.map lowerChar = k.name ∧
      k.name ∈ wl := by
    intro k hk
    obtain ⟨⟨cl, n, hmem, hkk⟩, hw⟩ := hΔtok k hk
    subst hkk
    refine ⟨goodName_lower (hsegN cl n hmem), map_lowerChar_idem n, hw⟩
  -- balance
  set bres := balanceAux Δ [] with hbres
  have houtlen : bres.1.length = Δ.length := balanceAux_length Δ []
  have hnames := balanceAux_names
    (fun n => goodName n = true ∧ n.map lowerChar = n ∧ n ∈ wl) Δ []
    (fun t ht _ => hΔP t ht) (by simp)
  -- pieces after normalization
  have htx0 : ∀ t, Piece.ptxt t ∈ bm.1 → ∀ c ∈ t, c ≠ '[' := by
    intro t ht c hc
    exact hsegT t (hΔtx t ht) c hc
  have htxN : ∀ t, Piece.ptxt t ∈ normPieces bm.1 → ∀ c ∈ t, safeChar c := by
    intro t ht c hc
    obtain ⟨t0, ht0, rfl⟩ := normPieces_texts bm.1 t ht
    exact normalizeHtml_safe (htx0 t0 ht0) c hc
  have htxNb : ∀ t, Piece.ptxt t ∈ normPieces bm.1 → ∀ c ∈ t, c ≠ '[' :=
    fun t ht c hc => (htxN t ht c hc).2.2.2.2
  refine ⟨itemsOfPieces bres.1 (normPieces bm.1) ++ (closersFor bres.2).map Item.itok,
    ?_, ?_, ?_, ?_⟩
  · -- output equality
    show (if wl.isEmpty then _ else _) = _
    rw [List.isEmpty_eq_false.mpr hwl]
    show (let html1 := bracketEscape cs
      let segs2 := scanTags html1
      let bm2 := buildMarked wl segs2 []
      let html2 := renderPieces bm2.1
      let html3 := normalizeHtml html2
      let bal := balanceTags bm2.2
      let tagstrs := bal.1.map renderToks
      let html4 := substMarkers (html3.length + 1) html3 tagstrs
      html4 ++ renderToks bal.2) = _
    simp only [← hsegs, ← hbm, balanceTags, hΔ2, ← hbres]
    rw [normalizeHtml_renderPieces]
    rw [substMarkers_pieces bres.1 (normPieces bm.1) _ htxNb (Nat.le_succ _)]
    rw [renderItems_append, renderItems_map_itok]
  · -- texts safe
    intro t ht
    rcases List.mem_append.mp ht with ht | ht
    · exact htxN t (itemsOfPieces_texts _ _ t ht)
    · obtain ⟨k, _, hk⟩ := List.mem_map.mp ht
      exact absurd hk (by simp)
  · -- tokens good
    intro k hk
    rcases List.mem_append.mp hk with hk | hk
    · obtain ⟨i, hi, hm⟩ := itemsOfPieces_toks _ _ k hk
      rw [normPieces_marks, hΔmk] at hi
      have hilt : i < bres.1.length := by
        rw [houtlen]
        have := List.mem_range'_1.mp hi
        omega
      have hgd : bres.1.getD i [] = bres.1[i] := by
        rw [List.getD_eq_getElem?_getD, List.getElem?_eq_getElem hilt]
        rfl
      rw [hgd] at hm
      exact hnames.1 k (flatT_mem (bres.1.getElem_mem hilt) k hm)
    · obtain ⟨k0, hk0, hkk⟩ := List.mem_map.mp hk
      obtain ⟨rfl⟩ := (Item.itok.injEq ..).mp hkk.symm
      obtain ⟨n, hn, hkn⟩ := List.mem_map.mp hk0
      subst hkn
      exact hnames.2 n hn
  · -- well-nested
    rw [itemToks_append, itemToks_map_itok]
    rw [itemToks_itemsOfPieces (normPieces bm.1) bres.1 0 (Nat.zero_le _)
      (by rw [normPieces_marks, hΔmk, houtlen, Nat.sub_zero])]
    rw [List.drop_zero]
    have := chkBal_balanceTags Δ
    unfold balanceTags at this
    rw [← hbres] at this
    exact this

theorem strip_no_wl_out_no_lt (cs : List Char) :
    ∀ c ∈ stripHtmlTags cs [], c ≠ '<' := by
  intro c hc
  have hc2 : c ∈ concatMap2 ltEscChar (segsText (scanTags cs)) := hc
  exact ltEscape_no_lt _ c hc2

theorem scanTags_no_lt {cs : List Char} (h : ∀ c ∈ cs, c ≠ '<') :
    scanTags cs = [Seg.stext cs] := by
  unfold scanTags
  have hx := scanAux_text cs [] [] (cs.length + 1) h (by simp)
  rw [List.append_nil] at hx
  rw [hx, scanAux_nil]
  simp

theorem strip_no_wl_idempotent (cs : List Char) :
    stripHtmlTags (stripHtmlTags cs []) [] = stripHtmlTags cs [] := by
  have hno := strip_no_wl_out_no_lt cs
  show concatMap2 ltEscChar (segsText (scanTags (stripHtmlTags cs []))) = _
  rw [scanTags_no_lt hno]
  show concatMap2 ltEscChar (stripHtmlTags cs [] ++ segsText []) = _
  rw [show segsText ([] : List Seg) = [] from rfl, List.append_nil]
  exact ltEscape_id hno

/-! ## Claim theorems: whitelist filter, universal -/

/-- Claim C5: the whitelist filter is idempotent — re-running it on its
own output with the same whitelist returns the output unchanged, for
every input string and every whitelist (including the empty one, i.e.
the no-whitelist path). -/
theorem C5_idempotent (s : String) (wl : List String) :
    stripHtmlTagsS (stripHtmlTagsS s wl) wl = stripHtmlTagsS s wl := by
  have hcore : stripHtmlTags (stripHtmlTags s.toList (wl.map String.toList))
      (wl.map String.toList) = stripHtmlTags s.toList (wl.map String.toList) := by
    by_cases hwl : wl.map String.toList = []
    · rw [hwl]
      exact strip_no_wl_idempotent s.toList
    · obtain ⟨items, heq, hgood⟩ := strip_characterization s.toList _ hwl
      rw [heq]
      exact strip_renderItems_id _ items hwl hgood
  exact congrArg String.mk hcore

/-- Claim C1: in the output of the whitelist filter, the tag-token
sequence is well-nested — every opening tag of a non-void element is
closed later in LIFO order, no closing tag precedes its opener, and the
auto-close suffix closes every surviving opener (the checker demands an
empty stack at the end). -/
theorem C1_filter_output_balanced (s : String) (wl : List String) (hwl : wl ≠ []) :
    chkBal [] (toksOf (stripHtmlTagsS s wl).toList) = true := by
  have hwl' : wl.map String.toList ≠ [] := fun h => hwl (List.map_eq_nil_iff.mp h)
  obtain ⟨items, heq, htxt, htok, hchk⟩ := strip_characterization s.toList _ hwl'
  show chkBal [] (toksOf (stripHtmlTags s.toList (wl.map String.toList))) = true
  rw [heq]
  unfold toksOf
  rw [show scanTags (renderItems items) = scanItemsExp [] items from ?_]
  · rw [toksOfSegs_scanItemsExp]
    exact hchk
  · unfold scanTags
    exact scanAux_renderItems items [] _ (fun t ht c hc => (htxt t ht c hc).1)
      (fun k hk => (htok k hk).1) (Nat.le_succ _)

theorem C1_witness :
    ((["b", "table"] : List String) ≠ []) ∧
    chkBal [] (toksOf (stripHtmlTagsS "</i><table><b>x" ["b", "table"]).toList) = true :=
  ⟨by decide, C1_filter_output_balanced "</i><table><b>x" ["b", "table"] (by decide)⟩

end Sanitize


